import Mathlib

/-!
# A verification development for the proposal publication workflow

This file gives a shallow embedding, in Lean, of the core logic of the
proposal publication tool (`scripts/publish/publish.go`): commit
inspection and proposal classification, discussion verification, the
discussion-link synchronizer, the document-reference rewrite pass, the
dry-run dispatch, and the history rewriter for non-tip commits (modelled
over an abstract git repository state).  Text is modelled as lists of
characters, git histories as association lists of commits, and external
command failures as an explicit fault-injection record.  The theorems at
the end of the file settle the specification claims about this program.
-/

namespace Publish

/-- Text is modelled as a list of characters (the Go code works on byte
strings; all inputs of interest here are ASCII). -/
abbrev Str := List Char

/-- Embed a Lean string literal as a character list. -/
def lit (s : String) : Str := s.toList

/-- `startsWith pat s` : `pat` is a prefix of `s`. -/
def startsWith : Str → Str → Bool
  | [], _ => true
  | _ :: _, [] => false
  | p :: ps, c :: cs => p = c && startsWith ps cs

/-- `containsSub s pat` : `pat` occurs as a contiguous substring of `s`
(the model of Go `strings.Contains`). -/
def containsSub : Str → Str → Bool
  | [], pat => startsWith pat []
  | c :: cs, pat => startsWith pat (c :: cs) || containsSub cs pat

/-- ASCII decimal digit, the model of the regex class `\d`. -/
def isDigitC (c : Char) : Bool := '0' ≤ c && c ≤ '9'

/-- Lifecycle classification of a proposal basename
(`findProposalFile`, publish.go lines 226-238). -/
inductive Classification where
  | Draft : Classification
  | Numbered : Str → Classification
  | InvalidNamingConvention : Classification
deriving DecidableEq, Repr

/-- If `s = m ++ ".md"` return `m`; the anchored tail `\.md$` of both
filename regexes.  The three-character suffix is forced by the `$`
anchor, so the split is unique. -/
def splitDotMd (s : Str) : Option Str :=
  match s.reverse with
  | 'd' :: 'm' :: '.' :: mrev => some mrev.reverse
  | _ => none

/-- The regex atom `.*` matches any characters except newline. -/
def noNewline (s : Str) : Bool := s.all (fun c => c ≠ '\n')

/-- Go regex `^xxxx-.*\.md$` (publish.go line 226, `draftPattern`). -/
def matchDraft (s : Str) : Bool :=
  match s with
  | 'x' :: 'x' :: 'x' :: 'x' :: '-' :: rest =>
    match splitDotMd rest with
    | some m => noNewline m
    | none => false
  | _ => false

/-- Go regex `^(\d+)-.*\.md$` (publish.go line 227, `numberedPattern`),
returning the first capture group.  The greedy `\d+` must be followed by
a literal `-`, so the capture is exactly the maximal leading digit
run. -/
def matchNumbered (s : Str) : Option Str :=
  match s.dropWhile isDigitC with
  | '-' :: rest =>
    match s.takeWhile isDigitC with
    | [] => none
    | c :: ds =>
      match splitDotMd rest with
      | some m => if noNewline m then some (c :: ds) else none
      | none => none
  | _ => none

/-- The classification stanza of `findProposalFile` (lines 229-238):
the draft pattern is tried first, then the numbered pattern, and any
other basename is a naming-convention error. -/
def classifyBasename (s : Str) : Classification :=
  if matchDraft s then .Draft
  else
    match matchNumbered s with
    | some d => .Numbered d
    | none => .InvalidNamingConvention

/-! ## Commit Inspector: candidate enumeration (`findProposalFile`, lines 160-240)

A diff-tree output line is modelled after Go's
`strings.Split(line, "\t")`: a list of fields, the first being the
status. -/

/-- `endsWith pat s` : `pat` is a suffix of `s`. -/
def endsWith (pat s : Str) : Bool := startsWith pat.reverse s.reverse

/-- A changed path counts as a proposal document when it lives under
`designs/` and ends in `.md` (lines 190-191 and 200). -/
def isProposalPath (f : Str) : Bool :=
  startsWith (lit "designs/") f && endsWith (lit ".md") f

/-- One iteration of the diff-tree scanning loop (lines 169-204).  The
accumulator carries the candidate list and the last detected proposal
rename.  Lines with fewer than two fields are skipped; a rename line
needs three fields and contributes only the rename target, and then only
when both endpoints are proposal paths; `A` and `M` lines contribute
their single path when it is a proposal path. -/
def scanStep (acc : List Str × Option (Str × Str)) (parts : List Str) :
    List Str × Option (Str × Str) :=
  match parts with
  | status :: oldFile :: tail =>
    if startsWith (lit "R") status then
      match tail with
      | newFile :: _ =>
        if isProposalPath oldFile && isProposalPath newFile then
          (acc.1 ++ [newFile], some (oldFile, newFile))
        else acc
      | [] => acc
    else if status = lit "A" || status = lit "M" then
      if isProposalPath oldFile then (acc.1 ++ [oldFile], acc.2) else acc
    else acc
  | _ => acc

/-- The full scan over the parsed diff-tree lines. -/
def scanDiffLines (entries : List (List Str)) : List Str × Option (Str × Str) :=
  entries.foldl scanStep ([], none)

/-- Outcome of the Commit Inspector's proposal discovery
(lines 206-240). -/
inductive InspectOutcome where
  | NoProposalFound : InspectOutcome
  | MultipleProposalsFound : List Str → Option (Str × Str) → InspectOutcome
  | Classified : Str → Classification → InspectOutcome
deriving DecidableEq, Repr

/-- `filepath.Base` for the slash-separated paths in use: everything
after the last `/`. -/
def baseName (f : Str) : Str := (f.reverse.takeWhile (fun c => c ≠ '/')).reverse

/-- `findProposalFile` on a parsed diff: zero candidates fail, more than
one candidate fails with the candidate list and any detected rename, a
single candidate is classified by basename. -/
def findProposalFile (entries : List (List Str)) : InspectOutcome :=
  match scanDiffLines entries with
  | ([], _) => .NoProposalFound
  | ([f], _) => .Classified f (classifyBasename (baseName f))
  | (fs, ren) => .MultipleProposalsFound fs ren

/-! ## Discussion Manager: `verifyDiscussion` (lines 513-594) -/

/-- ASCII lower-casing, the model of `strings.ToLower` on the ASCII
inputs in use. -/
def toLowerStr (s : Str) : Str := s.map Char.toLower

/-- The Go helper `min` (lines 596-601). -/
def minNat (a b : Nat) : Nat := if a < b then a else b

/-- The fetched state of the discussion, as the function observes it
through the remote API. -/
inductive DiscussionResp where
  | apiError : DiscussionResp
  | graphqlErrors : DiscussionResp
  | fetched : Str → Str → DiscussionResp
deriving DecidableEq, Repr

/-- Outcome of `verifyDiscussion`; `mismatch` carries the logged body
preview. -/
inductive VerifyOutcome where
  | success : Str → VerifyOutcome
  | notFound : VerifyOutcome
  | mismatch : Str → VerifyOutcome
  | apiFailure : VerifyOutcome
deriving DecidableEq, Repr

/-- `verifyDiscussion` for a numbered proposal (lines 546-594): an empty
fetched body means the discussion did not resolve; otherwise the
lower-cased body must contain the lower-cased proposal path or one of
the three draft-indicator phrases, in which case the session's
discussion URL is taken from the fetched record; otherwise the function
fails after logging the first `min 200 (length body)` characters of the
body. -/
def verifyDiscussion (proposalFile : Str) (resp : DiscussionResp) : VerifyOutcome :=
  match resp with
  | .apiError => .apiFailure
  | .graphqlErrors => .apiFailure
  | .fetched body url =>
    if body = [] then .notFound
    else
      if containsSub (toLowerStr body) (toLowerStr proposalFile)
          || containsSub (toLowerStr body) (lit "coming soon")
          || containsSub (toLowerStr body) (lit "being prepared for review")
          || containsSub (toLowerStr body) (lit "draft under review") then
        .success url
      else .mismatch (body.take (minNat 200 body.length))

/-! ## Document Synchronizer: `updateDiscussionLink` (lines 802-899)

The regular expression on line 831 recognizes a discussion-link line:

`^(\*\s+\*\*Discussion Channel\*\*:\s*|\*\*Discussion Channel\*\*\s*:?\s*(?:GitHub:?\s*)?)(.*)$`

Both alternatives are modelled literally; the first capture group is the
matched label (including trailing spacing), the second the remaining
value text of the line. -/

/-- The regex class `\s` as implemented by Go's regexp package. -/
def isSpaceC (c : Char) : Bool :=
  c = ' ' || c = '\t' || c = '\n' || c = '\x0c' || c = '\r'

def dcLabel : Str := lit "**Discussion Channel**"

/-- First alternative: `\*\s+\*\*Discussion Channel\*\*:\s*`. -/
def matchDCAlt1 (line : Str) : Option Str :=
  match line with
  | '*' :: rest =>
    if rest.takeWhile isSpaceC = [] then none
    else
      let r2 := rest.dropWhile isSpaceC
      if startsWith (dcLabel ++ [':']) r2 then
        some ('*' :: rest.takeWhile isSpaceC ++ dcLabel ++ ':'
          :: (r2.drop (dcLabel.length + 1)).takeWhile isSpaceC)
      else none
  | _ => none

/-- Second alternative: `\*\*Discussion Channel\*\*\s*:?\s*(?:GitHub:?\s*)?`.
Every quantifier is greedy and no alternative requires backtracking,
so the group is computed left to right. -/
def matchDCAlt2 (line : Str) : Option Str :=
  if startsWith dcLabel line then
    let r := line.drop dcLabel.length
    let sp1 := r.takeWhile isSpaceC
    let r1 := r.dropWhile isSpaceC
    let col : Str := match r1 with
      | ':' :: _ => [':']
      | _ => []
    let r2 : Str := match r1 with
      | ':' :: t => t
      | _ => r1
    let sp2 := r2.takeWhile isSpaceC
    let r3 := r2.dropWhile isSpaceC
    let gh : Str :=
      if startsWith (lit "GitHub") r3 then
        let r4 := r3.drop 6
        let col2 : Str := match r4 with
          | ':' :: _ => [':']
          | _ => []
        let r5 : Str := match r4 with
          | ':' :: t => t
          | _ => r4
        lit "GitHub" ++ col2 ++ r5.takeWhile isSpaceC
      else []
    some (dcLabel ++ sp1 ++ col ++ sp2 ++ gh)
  else none

/-- The full discussion-channel pattern: group 1 is the label match,
group 2 (`.*$`) the rest of the line. -/
def matchDCP (line : Str) : Option (Str × Str) :=
  match matchDCAlt1 line with
  | some g1 => some (g1, line.drop g1.length)
  | none =>
    match matchDCAlt2 line with
    | some g1 => some (g1, line.drop g1.length)
    | none => none

/-- Placeholder test on the value group (line 836). -/
def isPlaceholderValue (v : Str) : Bool :=
  containsSub v (lit "{link}") || containsSub v (lit "TBD") || containsSub v (lit "TODO")

/-- The first loop of `updateDiscussionLink` (lines 833-843): find the
first line whose discussion-channel value is a placeholder and replace
the value with the discussion URL. -/
def replaceFirstDC (url : Str) : List Str → List Str × Bool
  | [] => ([], false)
  | l :: ls =>
    match matchDCP l with
    | some (g1, g2) =>
      if isPlaceholderValue g2 then ((g1 ++ url) :: ls, true)
      else
        match replaceFirstDC url ls with
        | (ls', u) => (l :: ls', u)
    | none =>
      match replaceFirstDC url ls with
      | (ls', u) => (l :: ls', u)

/-- The author anchor `^\*\s+\*\*Author\(s\)\*\*:` (line 847). -/
def matchAuthor (line : Str) : Bool :=
  match line with
  | '*' :: rest =>
    decide (rest.takeWhile isSpaceC ≠ []) &&
      startsWith (lit "**Author(s)**:") (rest.dropWhile isSpaceC)
  | _ => false

/-- The insertion loop (lines 846-857): insert a fresh
discussion-channel line right after the first author line. -/
def insertAfterAuthor (url : Str) : List Str → List Str × Bool
  | [] => ([], false)
  | l :: ls =>
    if matchAuthor l then
      (l :: (lit "*   **Discussion Channel**: " ++ url) :: ls, true)
    else
      match insertAfterAuthor url ls with
      | (ls', u) => (l :: ls', u)

/-- The whole line transformation of `updateDiscussionLink`
(lines 828-857): replace a placeholder value in place; failing that,
insert a new line after the author anchor.  The returned flag is the
`updated` variable that gates the write-back. -/
def updateDiscussionLinkLines (url : Str) (lines : List Str) : List Str × Bool :=
  match replaceFirstDC url lines with
  | (ls1, true) => (ls1, true)
  | (_, false) => insertAfterAuthor url lines

/-! ## History Rewriter: abstract git model (`renameProposal`, lines 604-799)

Commits form linear histories; a commit records its parent, an abstract
patch identifier (`change`) and whether the proposal rename has been
applied to it.  Working-tree file contents are not part of the state:
the combined effect of `git mv` + link update + `git commit --amend` is
the `renamed` flag set by the amend step.  Fresh commit hashes are drawn
from a counter. -/

structure Commit where
  parent : Option Nat
  change : Nat
  renamed : Bool
deriving DecidableEq, Repr

structure Repo where
  store : List (Nat × Commit)
  branches : List (String × Nat)
  cur : String
  dirty : Bool
  stash : Bool
  next : Nat
deriving DecidableEq, Repr

/-- Commit lookup (first match in the association list). -/
def lookupC (s : List (Nat × Commit)) (h : Nat) : Option Commit :=
  match s with
  | [] => none
  | (k, c) :: rest => if k = h then some c else lookupC rest h

/-- Branch lookup. -/
def lookupB (bs : List (String × Nat)) (b : String) : Option Nat :=
  match bs with
  | [] => none
  | (k, v) :: rest => if k = b then some v else lookupB rest b

def setBranch (bs : List (String × Nat)) (b : String) (h : Nat) :
    List (String × Nat) :=
  match bs with
  | [] => []
  | (k, v) :: rest => if k = b then (k, h) :: rest else (k, v) :: setBranch rest b h

def headHash (r : Repo) : Option Nat := lookupB r.branches r.cur

/-- `git stash push` (line 677). -/
def gitStashPush (r : Repo) : Repo := { r with dirty := false, stash := true }

/-- `git checkout -b tempBranch targetHash` (line 694). -/
def gitCheckoutNew (b : String) (h : Nat) (r : Repo) : Repo :=
  { r with branches := (b, h) :: r.branches, cur := b }

/-- `git checkout branch` (lines 704, 746, 777). -/
def gitCheckout (b : String) (r : Repo) : Repo :=
  match lookupB r.branches b with
  | some _ => { r with cur := b }
  | none => r

/-- `git reset --hard hash` on the current branch (lines 750, 781). -/
def gitResetHard (h : Nat) (r : Repo) : Repo :=
  { r with branches := setBranch r.branches r.cur h }

/-- Remove a branch from the branch list. -/
def removeBranch (bs : List (String × Nat)) (b : String) : List (String × Nat) :=
  match bs with
  | [] => []
  | (k, v) :: rest => if k = b then removeBranch rest b else (k, v) :: removeBranch rest b

/-- `git branch -D b` (line 705). -/
def gitBranchDelete (b : String) (r : Repo) : Repo :=
  { r with branches := removeBranch r.branches b }

/-- `git stash pop` (line 708). -/
def gitStashPop (r : Repo) : Repo :=
  if r.stash then { r with dirty := true, stash := false } else r

/-- `git commit --amend` of the head commit after the rename and link
update (line 727): the head commit is replaced by a fresh commit with
the same parent and change, marked renamed. -/
def gitAmend (r : Repo) : Option (Nat × Repo) :=
  match headHash r with
  | none => none
  | some h =>
    match lookupC r.store h with
    | none => none
    | some c =>
      some (r.next,
        { r with store := (r.next, { c with renamed := true }) :: r.store,
                 branches := setBranch r.branches r.cur r.next,
                 next := r.next + 1 })

/-- `git cherry-pick src` onto the current head (line 767): a fresh
commit carrying the source commit's change. -/
def gitCherryPick (src : Nat) (r : Repo) : Option Repo :=
  match headHash r, lookupC r.store src with
  | some h, some c =>
    some { r with
      store := (r.next, { parent := some h, change := c.change, renamed := c.renamed })
        :: r.store,
      branches := setBranch r.branches r.cur r.next,
      next := r.next + 1 }
  | _, _ => none

/-- Walk the parent chain from `h` down, stopping before `target`
(newest first); fuel bounds the walk. -/
def walkBack (r : Repo) (target : Nat) : Nat → Nat → List Nat
  | 0, _ => []
  | fuel + 1, h =>
    if h = target then []
    else
      match lookupC r.store h with
      | none => []
      | some c =>
        match c.parent with
        | some p => h :: walkBack r target fuel p
        | none => [h]

/-- `git rev-list --reverse target..branch` for the linear histories in
use (lines 740 and 759): the commits on `b` strictly after `target`,
oldest first. -/
def commitsAfter (r : Repo) (target : Nat) (b : String) : List Nat :=
  match lookupB r.branches b with
  | none => []
  | some t => (walkBack r target (r.store.length + 1) t).reverse

/-- Execution state of one `renameProposal` run: the repository plus the
`cleanupDone` flag of the cleanup closure (line 701) and a counter of
how many times the cleanup body has run. -/
structure RunState where
  repo : Repo
  cleanupDone : Bool
  cleanupCount : Nat
deriving DecidableEq, Repr

/-- State-and-error monad for the rewrite sequence; the state survives
an error (the Go function returns leaving the repository as it is). -/
def M (α : Type) := RunState → Except String α × RunState

instance : Monad M where
  pure a := fun s => (Except.ok a, s)
  bind x f := fun s =>
    match x s with
    | (Except.ok a, s') => f a s'
    | (Except.error e, s') => (Except.error e, s')

def mthrow {α : Type} (e : String) : M α := fun s => (Except.error e, s)

def getRepo : M Repo := fun s => (Except.ok s.repo, s)

def modifyRepo (f : Repo → Repo) : M Unit :=
  fun s => (Except.ok (), { s with repo := f s.repo })

/-- Injected failure of an external git command. -/
def guardFault (b : Bool) (e : String) : M Unit :=
  if b then mthrow e else pure ()

/-- Which commands fail in a given run; `cherryFail` names the source
commits whose cherry-pick fails. -/
structure Faults where
  failStatus : Bool := false
  failStashPush : Bool := false
  failBranchQuery : Bool := false
  failCheckoutTemp : Bool := false
  failMv : Bool := false
  failLink : Bool := false
  failAmend : Bool := false
  failRevParse : Bool := false
  failCheckoutOrig : Bool := false
  failReset : Bool := false
  cherryFail : Nat → Bool := fun _ => false

/-- The temporary branch (line 693); the timestamped unique name is
modelled as a fixed fresh name. -/
def tempBranchName : String := "proposal-rename-tmp"

/-- The cleanup body (lines 702-712): switch back to the original
branch, delete the temporary branch and, when a stash was created,
restore it.  Errors of these commands are ignored by the source. -/
def cleanupRepo (origBranch : String) (stashCreated : Bool) (r : Repo) : Repo :=
  let r1 := gitCheckout origBranch r
  let r2 := gitBranchDelete tempBranchName r1
  if stashCreated then gitStashPop r2 else r2

/-- The cleanup closure with its `cleanupDone` guard. -/
def cleanupM (origBranch : String) (stashCreated : Bool) : M Unit := fun s =>
  if s.cleanupDone then (Except.ok (), s)
  else
    (Except.ok (),
      { repo := cleanupRepo origBranch stashCreated s.repo,
        cleanupDone := true, cleanupCount := s.cleanupCount + 1 })

/-- Steps of the non-tip rewrite before the cleanup is registered
(lines 669-698): check the working tree, stash if dirty, record the
current branch, create the temporary branch at the target commit. -/
def nonTipSetup (f : Faults) (target : Nat) : M (String × Bool) := do
  guardFault f.failStatus "failed to check git status"
  let r ← getRepo
  let stashCreated ←
    if r.dirty then do
      guardFault f.failStashPush "failed to stash changes"
      modifyRepo gitStashPush
      pure true
    else pure false
  guardFault f.failBranchQuery "failed to get current branch"
  let r2 ← getRepo
  guardFault f.failCheckoutTemp "failed to create temp branch"
  modifyRepo (gitCheckoutNew tempBranchName target)
  pure (r2.cur, stashCreated)

/-- The cherry-pick loop (lines 765-771): oldest first, aborting on the
first failing pick. -/
def pickAll (f : Faults) : List Nat → M Unit
  | [] => pure ()
  | c :: cs => do
    guardFault (f.cherryFail c) "failed to cherry-pick"
    let r ← getRepo
    match gitCherryPick c r with
    | none => mthrow "failed to cherry-pick"
    | some r' => do
      modifyRepo (fun _ => r')
      pickAll f cs

/-- The guarded body of the non-tip rewrite (lines 716-790): rename,
link update and amend on the temporary branch; count the descendants of
the original target on the original branch; with no descendants repoint
the branch to the amended commit, otherwise replay every descendant and
repoint the branch to the replayed tip.  Returns the amended commit's
hash, to which the session's resolved commit is then set (line 788). -/
def nonTipBody (f : Faults) (target : Nat) (origBranch : String) : M Nat := do
  guardFault f.failMv "failed to rename file"
  guardFault f.failLink "failed to update discussion link"
  guardFault f.failAmend "failed to amend commit"
  let r ← getRepo
  match gitAmend r with
  | none => mthrow "failed to amend commit"
  | some (newHash, r') => do
    modifyRepo (fun _ => r')
    guardFault f.failRevParse "failed to get new commit hash"
    let r2 ← getRepo
    let descendants := commitsAfter r2 target origBranch
    if descendants.length = 0 then do
      guardFault f.failCheckoutOrig "failed to checkout original branch"
      modifyRepo (gitCheckout origBranch)
      guardFault f.failReset "failed to update branch"
      modifyRepo (gitResetHard newHash)
      pure newHash
    else do
      pickAll f descendants
      let r3 ← getRepo
      let newHead := (headHash r3).getD 0
      guardFault f.failCheckoutOrig "failed to checkout original branch"
      modifyRepo (gitCheckout origBranch)
      guardFault f.failReset "failed to update branch"
      modifyRepo (gitResetHard newHead)
      pure newHash

/-- The whole non-tip path of `renameProposal` (lines 659-795): setup,
then the body with the cleanup deferred on every exit, the success path
also calling the cleanup explicitly (line 792) which the `cleanupDone`
flag makes idempotent. -/
def renameHistorical (f : Faults) (target : Nat) (r0 : Repo) :
    Except String Nat × RunState :=
  match nonTipSetup f target { repo := r0, cleanupDone := false, cleanupCount := 0 } with
  | (Except.error e, s1) => (Except.error e, s1)
  | (Except.ok (origBranch, stashCreated), s1) =>
    match (do
        let h ← nonTipBody f target origBranch
        cleanupM origBranch stashCreated
        pure h : M Nat) s1 with
    | (res, s2) =>
      match cleanupM origBranch stashCreated s2 with
      | (_, s3) => (res, s3)

/-- The repository state right after a successful setup: possibly
stashed, and on the temporary branch rooted at the target. -/
def setupRepo (target : Nat) (r : Repo) : Repo :=
  gitCheckoutNew tempBranchName target (if r.dirty then gitStashPush r else r)

/-! ## Reference resolution and the rename dispatch (lines 604-630) -/

/-- `git rev-parse ref`: `HEAD` resolves to the tip of the current
branch, a branch name to its tip, and anything else is read as a commit
hash (hashes are modelled as decimal numerals). -/
def resolveRef (r : Repo) (ref : String) : Option Nat :=
  if ref = "HEAD" then lookupB r.branches r.cur
  else
    match lookupB r.branches ref with
    | some h => some h
    | none => ref.toNat?

/-- Which path `renameProposal` takes. -/
inductive RenamePath where
  | numbered : RenamePath
  | dryRunStop : RenamePath
  | direct : RenamePath
  | historical : RenamePath
deriving DecidableEq, Repr

/-- The dispatch of `renameProposal` (lines 604-630): numbered proposals
skip the rename, dry-run stops after computing the new name, and
otherwise the direct amend path is taken exactly when the session's
commit reference is the literal string `HEAD`. -/
def renameDispatch (isDraft dryRun : Bool) (commitRef : String) : RenamePath :=
  if !isDraft then .numbered
  else if dryRun then .dryRunStop
  else if commitRef = "HEAD" then .direct
  else .historical

/-! ## Effect traces and the dry-run guards

Each workflow stage is modelled as the list of external effects it
issues.  Branches whose contents depend on remote responses are taken as
parameters: the theorems quantify over them, which is exactly the claim
"no matter what the rest would do, dry-run does none of it". -/

/-- Case-insensitive prefix match; the pattern is given lower-case. -/
def ciStartsWith : Str → Str → Bool
  | [], _ => true
  | _ :: _, [] => false
  | p :: ps, c :: cs => p = c.toLower && ciStartsWith ps cs

/-- First alternative of an alternation that matches at this position,
with its length; the alternatives cannot both match here, so regex
leftmost-first order is just first-match order. -/
def tryAlts (alts : List Str) (s : Str) : Option Nat :=
  match alts with
  | [] => none
  | a :: rest => if ciStartsWith a s then some a.length else tryAlts rest s

/-- `(discussion|github discussion|gh discussion)` in source order. -/
def discussionLabels : List Str :=
  [lit "discussion", lit "github discussion", lit "gh discussion"]

/-- `(tracking issue|issue)` in source order. -/
def issueLabels : List Str := [lit "tracking issue", lit "issue"]

/-- `(TBD|TODO|xxxx|\[TBD\]|\[TODO\])` in source order (the surrounding
`(?i)` applies). -/
def placeholderTokens : List Str :=
  [lit "tbd", lit "todo", lit "xxxx", lit "[tbd]", lit "[todo]"]

/-- Matcher for patterns 1 and 2 (lines 1342-1343):
`(?i)(LBL):\s*(TBD|TODO|xxxx|\[TBD\]|\[TODO\])`, returning the match
length at this position. -/
def matchLabelPlaceholder (labels : List Str) (s : Str) : Option Nat :=
  match tryAlts labels s with
  | none => none
  | some n1 =>
    match s.drop n1 with
    | ':' :: r2 =>
      let sp := r2.takeWhile isSpaceC
      match tryAlts placeholderTokens (r2.dropWhile isSpaceC) with
      | some n2 => some (n1 + 1 + sp.length + n2)
      | none => none
    | _ => none

/-- Matcher for pattern 3 (line 1344):
`(?i)(discussion|github discussion|gh discussion):\s*#?\s*xxxx`. -/
def matchLabelHashXxxx (s : Str) : Option Nat :=
  match tryAlts discussionLabels s with
  | none => none
  | some n1 =>
    match s.drop n1 with
    | ':' :: r2 =>
      let sp := r2.takeWhile isSpaceC
      let r3 := r2.dropWhile isSpaceC
      let hashLen : Nat := match r3 with
        | '#' :: _ => 1
        | _ => 0
      let r4 : Str := match r3 with
        | '#' :: t => t
        | _ => r3
      let sp2 := r4.takeWhile isSpaceC
      if ciStartsWith (lit "xxxx") (r4.dropWhile isSpaceC) then
        some (n1 + 1 + sp.length + hashLen + sp2.length + 4)
      else none
    | _ => none

/-- `ReplaceAllString`: scan left to right, replacing each leftmost
match and continuing after it.  Fuel makes termination trivial; every
matcher in use consumes at least one character per match. -/
def replaceScan (matchAt : Str → Option Nat) (repl : Str) : Nat → Str → Str
  | 0, s => s
  | _ + 1, [] => []
  | fuel + 1, c :: cs =>
    match matchAt (c :: cs) with
    | some n => repl ++ replaceScan matchAt repl fuel ((c :: cs).drop n)
    | none => c :: replaceScan matchAt repl fuel cs

def replaceAllPat (matchAt : Str → Option Nat) (repl : Str) (s : Str) : Str :=
  replaceScan matchAt repl (s.length + 1) s

/-- The regex word class `\w` = `[0-9A-Za-z_]`. -/
def isWordChar (c : Char) : Bool :=
  isDigitC c || ('a' ≤ c && c ≤ 'z') || ('A' ≤ c && c ≤ 'Z') || c = '_'

/-- `(?i)\bxxxx\b` matches at the head of `s` given whether the previous
input character was a word character. -/
def xxxxBoundaryAt (prevWord : Bool) (s : Str) : Bool :=
  !prevWord && ciStartsWith (lit "xxxx") s &&
    (match s.drop 4 with
     | [] => true
     | c :: _ => !isWordChar c)

/-- Replacement scan for `(?i)\bxxxx\b`; boundaries are judged on the
input characters (the four consumed characters end in `x`, a word
character, so the flag after a match is `true`). -/
def replaceXxxxScan (num : Str) : Nat → Bool → Str → Str
  | 0, _, s => s
  | _ + 1, _, [] => []
  | fuel + 1, prevWord, c :: cs =>
    if xxxxBoundaryAt prevWord (c :: cs) then
      num ++ replaceXxxxScan num fuel true ((c :: cs).drop 4)
    else
      c :: replaceXxxxScan num fuel (isWordChar c) cs

def replaceXxxx (num : Str) (s : Str) : Str :=
  replaceXxxxScan num (s.length + 1) false s

/-- The replacement text built from the discussion number (line 1347). -/
def discussionReplacement (num : Str) : Str :=
  lit "Discussion: https://github.com/cue-lang/cue/discussions/" ++ num

/-- The content transformation of `updateDocumentReferences`
(lines 1339-1359): the three placeholder patterns are replaced in
sequence, and the standalone `xxxx` tokens are replaced only when the
original content nowhere contains the literal `xxxx-` (filename
examples, line 1356). -/
def updateDocRefsContent (num content : Str) : Str :=
  let u1 := replaceAllPat (matchLabelPlaceholder discussionLabels)
    (discussionReplacement num) content
  let u2 := replaceAllPat (matchLabelPlaceholder issueLabels)
    (discussionReplacement num) u1
  let u3 := replaceAllPat matchLabelHashXxxx (discussionReplacement num) u2
  if containsSub content (lit "xxxx-") then u3 else replaceXxxx num u3

/-- Whether the text contains a standalone `(?i)\bxxxx\b` token
anywhere, scanning with the word-character flag of the previous input
character (an observation on documents, used to state that the rewrite
pass leaves none behind). -/
def hasStandaloneXxxx : Bool → Str → Bool
  | _, [] => false
  | prevWord, c :: cs =>
    xxxxBoundaryAt prevWord (c :: cs) || hasStandaloneXxxx (isWordChar c) cs

/-- Result of one `updateDocumentReferences` run. -/
structure DocRefsResult where
  content : Str
  staged : Bool
  amended : Bool
  skipped : Bool
deriving DecidableEq, Repr

/-- `updateDocumentReferences` (lines 1323-1385): skipped for numbered
proposals and in dry-run; otherwise the file is rewritten, staged and
the commit amended exactly when the transformation changed the
content (lines 1361-1382). -/
def updateDocumentReferences (isDraft dryRun : Bool) (num content : Str) :
    DocRefsResult :=
  if !isDraft || dryRun then
    { content := content, staged := false, amended := false, skipped := true }
  else
    let updated := updateDocRefsContent num content
    if updated ≠ content then
      { content := updated, staged := true, amended := true, skipped := false }
    else
      { content := content, staged := false, amended := false, skipped := false }

/-! ## Content Publisher: `updateDiscussionContent` result (lines 1139-1320) -/

/-- The outcomes of the external interactions `updateDiscussionContent`
performs, in order: reading the proposal from the commit (line 1149),
resolving the discussion's GraphQL node id (lines 1244-1289, covering
the API call, response parsing and GraphQL errors), and the final update
mutation (line 1311). -/
structure ContentEnv where
  showResult : Except String Str
  nodeIdResult : Except String Str
  updateResult : Except String Unit

/-- The error behaviour of `updateDiscussionContent`: a failed read or a
failed node-id resolution is returned as an error; only a failure of the
final update mutation is demoted to a warning and reported as success
(lines 1311-1316). -/
def updateDiscussionContent (dryRun : Bool) (env : ContentEnv) :
    Except String Unit :=
  match env.showResult with
  | .error _ => .error "failed to read proposal file from commit"
  | .ok _ =>
    if dryRun then .ok ()
    else
      match env.nodeIdResult with
      | .error _ => .error "failed to get discussion"
      | .ok _ =>
        match env.updateResult with
        | .error _ => .ok ()
        | .ok _ => .ok ()

/-- The driver's handling of the Content Publisher's result
(lines 1464-1466): any returned error is fatal (`log.Fatal`). -/
def contentStageAborts (dryRun : Bool) (env : ContentEnv) : Bool :=
  match updateDiscussionContent dryRun env with
  | .error _ => true
  | .ok _ => false

/-! ## Observations on repositories, and linear-history fixtures -/

/-- The `(change, renamed)` data of the commits on the parent chain
starting at `h`, newest first; fuel bounds the walk. -/
def chainDataS (store : List (Nat × Commit)) : Nat → Nat → List (Nat × Bool)
  | 0, _ => []
  | fuel + 1, h =>
    match lookupC store h with
    | none => []
    | some c =>
      (c.change, c.renamed) ::
        (match c.parent with
         | some p => chainDataS store fuel p
         | none => [])

/-- Whether the parent walk from `h` reaches a root (or a missing
commit) within the given fuel. -/
def walkDone (store : List (Nat × Commit)) : Nat → Nat → Bool
  | 0, _ => false
  | fuel + 1, h =>
    match lookupC store h with
    | none => true
    | some c =>
      match c.parent with
      | none => true
      | some p => walkDone store fuel p

/-- The chain data of a branch's history, tip first. -/
def tipChain (r : Repo) (b : String) : List (Nat × Bool) :=
  match lookupB r.branches b with
  | none => []
  | some t => chainDataS r.store (r.store.length + 1) t

/-- Every key and every parent reference of the store is below `n`
(so a fresh commit keyed `n` cannot disturb any existing walk). -/
def storeBelow (n : Nat) (store : List (Nat × Commit)) : Prop :=
  ∀ pr ∈ store, pr.1 < n ∧ ∀ p, pr.2.parent = some p → p < n

/-- The descendant commits `C, D, …` of the rewrite scenario: changes
`ds` at hashes `h, h+1, …`, each the child of its predecessor, rooted
at `par`. -/
def descStore : List Nat → Nat → Nat → List (Nat × Commit)
  | [], _, _ => []
  | g :: gs, h, par => (h, { parent := some par, change := g, renamed := false })
      :: descStore gs (h + 1) h

/-- The linear repository `A(0) → B(1) → descendants(2…)` with one
branch `main` at the last commit, a clean working tree and no stash. -/
def mkLinear (b t : Nat) (ds : List Nat) : Repo :=
  { store := descStore ds 2 1 ++
      [(1, { parent := some 0, change := t, renamed := false }),
       (0, { parent := none, change := b, renamed := false })],
    branches := [("main", ds.length + 1)],
    cur := "main", dirty := false, stash := false,
    next := ds.length + 2 }

/-! ## Concrete fixtures used by counterexamples and witnesses -/

/-- A repository with one branch `main` whose tip is commit `1`. -/
def c3Repo : Repo :=
  { store := [(1, { parent := none, change := 0, renamed := false })],
    branches := [("main", 1)], cur := "main",
    dirty := false, stash := false, next := 2 }

def c4Url : Str := lit "https://github.com/cue-lang/cue/discussions/9999"

/-- A document whose discussion-channel line already holds a curated,
non-placeholder link, together with an author line. -/
def c4DocCurated : List Str :=
  [lit "# Test Proposal", lit "",
   lit "*   **Author(s)**: test@",
   lit "*   **Discussion Channel**: https://github.com/cue-lang/cue/discussions/9999",
   lit "", lit "Body."]

/-- A document with an author line and a placeholder discussion-channel
line. -/
def c4DocPlaceholder : List Str :=
  [lit "# Test Proposal",
   lit "*   **Author(s)**: test@",
   lit "*   **Discussion Channel**: TBD"]

/-- A run in which every external git command succeeds. -/
def noFaults : Faults := {}

/-- The linear repository right after the setup of the non-tip rewrite
of commit `1`: the temporary branch is created at the target. -/
def setupLinear (b t : Nat) (ds : List Nat) : Repo :=
  { store := descStore ds 2 1 ++
      [(1, { parent := some 0, change := t, renamed := false }),
       (0, { parent := none, change := b, renamed := false })],
    branches := [(tempBranchName, 1), ("main", ds.length + 1)],
    cur := tempBranchName, dirty := false, stash := false,
    next := ds.length + 2 }

/-- The linear repository right after the amend on the temporary
branch: the amended commit `B'` is keyed `ds.length + 2`. -/
def amendedLinear (b t : Nat) (ds : List Nat) : Repo :=
  { store := (ds.length + 2, { parent := some 0, change := t, renamed := true })
      :: (descStore ds 2 1 ++
        [(1, { parent := some 0, change := t, renamed := false }),
         (0, { parent := none, change := b, renamed := false })]),
    branches := [(tempBranchName, ds.length + 2), ("main", ds.length + 1)],
    cur := tempBranchName, dirty := false, stash := false,
    next := ds.length + 3 }

/-! ## Theorems -/

theorem splitDotMd_append (m : Str) : splitDotMd (m ++ lit ".md") = some m := by
  simp [splitDotMd, lit]

theorem splitDotMd_eq_some {s m : Str} (h : splitDotMd s = some m) :
    s = m ++ lit ".md" := by
  unfold splitDotMd at h
  split at h
  next mrev hrev =>
    have hs : s.reverse.reverse = ('d' :: 'm' :: '.' :: mrev).reverse := by rw [hrev]
    simp at hs
    simp only [Option.some.injEq] at h
    subst h
    simp [hs, lit]
  next => exact absurd h (by simp)

theorem matchDraft_iff (s : Str) :
    matchDraft s = true ↔ ∃ m, noNewline m = true ∧ s = lit "xxxx-" ++ m ++ lit ".md" := by
  constructor
  · intro h
    unfold matchDraft at h
    split at h
    next rest =>
      cases hsplit : splitDotMd rest with
      | none => rw [hsplit] at h; exact absurd h (by simp)
      | some m =>
        rw [hsplit] at h
        refine ⟨m, h, ?_⟩
        have := splitDotMd_eq_some hsplit
        simp [lit, this]
    next => exact absurd h (by simp)
  · rintro ⟨m, hm, rfl⟩
    show matchDraft ('x' :: 'x' :: 'x' :: 'x' :: '-' :: (m ++ lit ".md")) = true
    simp [matchDraft, splitDotMd_append, hm]

theorem takeWhile_append_cons {p : Char → Bool} {d : Str} (c : Char) (r : Str)
    (hd : ∀ x ∈ d, p x = true) (hc : p c = false) :
    (d ++ c :: r).takeWhile p = d ∧ (d ++ c :: r).dropWhile p = c :: r := by
  induction d with
  | nil => simp [List.takeWhile, List.dropWhile, hc]
  | cons a as ih =>
    have ha : p a = true := hd a (by simp)
    have ih' := ih (fun x hx => hd x (by simp [hx]))
    simp [List.takeWhile, List.dropWhile, ha, ih'.1, ih'.2]

theorem matchNumbered_eq_some_iff (s : Str) (d : Str) :
    matchNumbered s = some d ↔
      d ≠ [] ∧ (∀ c ∈ d, isDigitC c = true) ∧
      ∃ m, noNewline m = true ∧ s = d ++ '-' :: (m ++ lit ".md") := by
  constructor
  · intro h
    unfold matchNumbered at h
    split at h
    next rest0 hdrop =>
      cases htake : s.takeWhile isDigitC with
      | nil => simp [htake] at h
      | cons c ds =>
        cases hsplit : splitDotMd rest0 with
        | none => simp [htake, hsplit] at h
        | some m =>
          by_cases hnn : noNewline m = true
          · simp only [htake, hsplit, hnn, if_true] at h
            simp only [Option.some.injEq] at h
            subst h
            refine ⟨by simp, fun x hx => ?_, m, hnn, ?_⟩
            · exact List.mem_takeWhile_imp (htake ▸ hx)
            · have hsplit' := splitDotMd_eq_some hsplit
              calc s = s.takeWhile isDigitC ++ s.dropWhile isDigitC :=
                      (List.takeWhile_append_dropWhile isDigitC s).symm
                _ = (c :: ds) ++ '-' :: rest0 := by rw [hdrop, htake]
                _ = (c :: ds) ++ '-' :: (m ++ lit ".md") := by rw [hsplit']
          · simp [htake, hsplit, hnn] at h
    next => simp at h
  · rintro ⟨hne, hdig, m, hnn, rfl⟩
    have hsplit := takeWhile_append_cons (p := isDigitC) '-' (m ++ lit ".md") hdig (by decide)
    cases d with
    | nil => exact absurd rfl hne
    | cons c ds =>
      unfold matchNumbered
      simp only [hsplit.1, hsplit.2, splitDotMd_append, hnn, if_true]

theorem isDigitC_ne_x {c : Char} (h : isDigitC c = true) : c ≠ 'x' := by
  rintro rfl
  exact absurd h (by decide)

theorem classifyBasename_draft {m : Str} (hm : noNewline m = true) :
    classifyBasename (lit "xxxx-" ++ m ++ lit ".md") = .Draft := by
  have hd : matchDraft (lit "xxxx-" ++ m ++ lit ".md") = true :=
    (matchDraft_iff _).mpr ⟨m, hm, rfl⟩
  unfold classifyBasename
  rw [hd]
  simp

theorem classifyBasename_numbered {d m : Str} (hne : d ≠ [])
    (hdig : ∀ c ∈ d, isDigitC c = true) (hm : noNewline m = true) :
    classifyBasename (d ++ '-' :: (m ++ lit ".md")) = .Numbered d := by
  have hnum : matchNumbered (d ++ '-' :: (m ++ lit ".md")) = some d :=
    (matchNumbered_eq_some_iff _ _).mpr ⟨hne, hdig, m, hm, rfl⟩
  have hnd : matchDraft (d ++ '-' :: (m ++ lit ".md")) = false := by
    by_contra hcon
    have h := (matchDraft_iff _).mp (by
      cases hmd : matchDraft (d ++ '-' :: (m ++ lit ".md")) with
      | false => exact absurd hmd hcon
      | true => rfl)
    obtain ⟨m', _, heq⟩ := h
    cases d with
    | nil => exact absurd rfl hne
    | cons c ds =>
      have hc : c = 'x' := by
        have := congrArg (fun l => List.head? l) heq
        simpa [lit] using this
      exact absurd hc (isDigitC_ne_x (hdig c (by simp)))
  unfold classifyBasename
  rw [hnd, hnum]
  simp

theorem classifyBasename_invalid_iff (s : Str) :
    classifyBasename s = .InvalidNamingConvention ↔
      (¬ ∃ m, noNewline m = true ∧ s = lit "xxxx-" ++ m ++ lit ".md") ∧
      (¬ ∃ d m, d ≠ [] ∧ (∀ c ∈ d, isDigitC c = true) ∧ noNewline m = true ∧
        s = d ++ '-' :: (m ++ lit ".md")) := by
  constructor
  · intro h
    unfold classifyBasename at h
    split at h
    next => exact absurd h (by simp)
    next hnd =>
      constructor
      · intro ⟨m, hm, heq⟩
        exact hnd ((matchDraft_iff s).mpr ⟨m, hm, heq⟩)
      · intro ⟨d, m, hne, hdig, hm, heq⟩
        have : matchNumbered s = some d :=
          (matchNumbered_eq_some_iff s d).mpr ⟨hne, hdig, m, hm, heq⟩
        rw [this] at h
        exact absurd h (by simp)
  · intro ⟨hnodraft, hnonum⟩
    have hnd : matchDraft s = false := by
      cases hmd : matchDraft s with
      | false => rfl
      | true =>
        obtain ⟨m, hm, heq⟩ := (matchDraft_iff s).mp hmd
        exact absurd ⟨m, hm, heq⟩ hnodraft
    have hnn : matchNumbered s = none := by
      cases hmn : matchNumbered s with
      | none => rfl
      | some d =>
        obtain ⟨hne, hdig, m, hm, heq⟩ := (matchNumbered_eq_some_iff s d).mp hmn
        exact absurd ⟨d, m, hne, hdig, hm, heq⟩ hnonum
    simp [classifyBasename, hnd, hnn]

theorem foldl_scanStep_append (es : List (List Str)) :
    ∀ (a : List Str) (r : Option (Str × Str)),
      (es.foldl scanStep (a, r)).1 = a ++ (es.foldl scanStep ([], r)).1 ∧
      (es.foldl scanStep (a, r)).2 = (es.foldl scanStep ([], r)).2 := by
  induction es with
  | nil => intro a r; simp
  | cons e rest ih =>
    intro a r
    have hstep : ∀ (b : List Str) (q : Option (Str × Str)),
        (scanStep (b, q) e).1 = b ++ (scanStep ([], q) e).1 ∧
        (scanStep (b, q) e).2 = (scanStep ([], q) e).2 := by
      intro b q
      rcases e with _ | ⟨st, _ | ⟨o, t⟩⟩
      · simp [scanStep]
      · simp [scanStep]
      · rcases t with _ | ⟨nf, t'⟩
        · by_cases hr : startsWith (lit "R") st = true <;>
            by_cases ham : (st = lit "A" || st = lit "M") = true <;>
            by_cases h1 : isProposalPath o = true <;>
            simp [scanStep, hr, ham, h1]
        · by_cases hr : startsWith (lit "R") st = true <;>
            by_cases ham : (st = lit "A" || st = lit "M") = true <;>
            by_cases h1 : isProposalPath o = true <;>
            by_cases h2 : isProposalPath nf = true <;>
            simp [scanStep, hr, ham, h1, h2]
    simp only [List.foldl_cons]
    have h1 := hstep a r
    rcases hs : scanStep (a, r) e with ⟨b1, q1⟩
    rcases hs0 : scanStep (([] : List Str), r) e with ⟨b0, q0⟩
    have hb1 : b1 = a ++ b0 := by
      have := h1.1; rw [hs, hs0] at this; exact this
    have hq : q1 = q0 := by
      have := h1.2; rw [hs, hs0] at this; exact this
    subst hb1 hq
    have iha := ih (a ++ b0) q1
    have ihb := ih b0 q1
    constructor
    · rw [iha.1, ihb.1, List.append_assoc]
    · rw [iha.2, ihb.2]

theorem scanStep_rename (acc : List Str × Option (Str × Str))
    (status old new : Str) (t : List Str)
    (hr : startsWith (lit "R") status = true)
    (ho : isProposalPath old = true) (hn : isProposalPath new = true) :
    scanStep acc (status :: old :: new :: t) = (acc.1 ++ [new], some (old, new)) := by
  simp [scanStep, hr, ho, hn]

theorem scanStep_addmod (acc : List Str × Option (Str × Str))
    (status f : Str) (t : List Str)
    (hr : startsWith (lit "R") status = false)
    (ham : (status = lit "A" || status = lit "M") = true)
    (hf : isProposalPath f = true) :
    scanStep acc (status :: f :: t) = (acc.1 ++ [f], acc.2) := by
  simp [scanStep, hr, ham, hf]

theorem findProposalFile_none_iff (entries : List (List Str)) :
    findProposalFile entries = .NoProposalFound ↔ (scanDiffLines entries).1 = [] := by
  unfold findProposalFile
  rcases h : scanDiffLines entries with ⟨fs, ren⟩
  rcases fs with _ | ⟨f, _ | ⟨g, gs⟩⟩ <;> simp

theorem findProposalFile_multiple_iff (entries : List (List Str)) :
    (∃ cs ren, findProposalFile entries = .MultipleProposalsFound cs ren) ↔
      1 < (scanDiffLines entries).1.length := by
  unfold findProposalFile
  rcases h : scanDiffLines entries with ⟨fs, ren⟩
  rcases fs with _ | ⟨f, _ | ⟨g, gs⟩⟩ <;> simp

/-- C6: classification of a proposal basename is total and three-way: a
basename of the form `xxxx-<any>.md` is classified `Draft`; a basename
`<digits>-<any>.md` is classified `Numbered` with the discussion id
equal to the leading digit string; and the naming-convention failure
happens exactly on the basenames of neither form. -/
theorem C6_naming_classification :
    (∀ m : Str, noNewline m = true →
      classifyBasename (lit "xxxx-" ++ m ++ lit ".md") = .Draft) ∧
    (∀ d m : Str, d ≠ [] → (∀ c ∈ d, isDigitC c = true) → noNewline m = true →
      classifyBasename (d ++ '-' :: (m ++ lit ".md")) = .Numbered d) ∧
    (∀ s : Str, classifyBasename s = .InvalidNamingConvention ↔
      (¬ ∃ m, noNewline m = true ∧ s = lit "xxxx-" ++ m ++ lit ".md") ∧
      (¬ ∃ d m, d ≠ [] ∧ (∀ c ∈ d, isDigitC c = true) ∧ noNewline m = true ∧
        s = d ++ '-' :: (m ++ lit ".md"))) :=
  ⟨fun _ hm => classifyBasename_draft hm,
   fun _ _ hne hdig hm => classifyBasename_numbered hne hdig hm,
   classifyBasename_invalid_iff⟩

/-- Witness for C6 at the basenames `xxxx-demo.md` and `4014-demo.md`. -/
theorem C6_naming_classification_witness :
    classifyBasename (lit "xxxx-demo.md") = .Draft ∧
    classifyBasename (lit "4014-demo.md") = .Numbered (lit "4014") := by
  constructor
  · have h := C6_naming_classification.1 (lit "demo") (by decide)
    have e : lit "xxxx-" ++ lit "demo" ++ lit ".md" = lit "xxxx-demo.md" := by decide
    exact e ▸ h
  · have h := C6_naming_classification.2.1 (lit "4014") (lit "demo")
      (by decide) (by decide) (by decide)
    have e : lit "4014" ++ '-' :: (lit "demo" ++ lit ".md") = lit "4014-demo.md" := by
      decide
    exact e ▸ h

/-- C7: a rename whose two endpoints are both proposal paths contributes
exactly one candidate, the rename target; zero candidates fail with
`NoProposalFound`, more than one candidate fails with
`MultipleProposalsFound`; in particular a commit with a proposal rename
plus a second added or modified proposal file always fails with
`MultipleProposalsFound`. -/
theorem C7_candidate_rules :
    (∀ (acc : List Str × Option (Str × Str)) status old new t,
      startsWith (lit "R") status = true →
      isProposalPath old = true → isProposalPath new = true →
      scanStep acc (status :: old :: new :: t) = (acc.1 ++ [new], some (old, new))) ∧
    (∀ entries, findProposalFile entries = .NoProposalFound ↔
      (scanDiffLines entries).1 = []) ∧
    (∀ entries, (∃ cs ren, findProposalFile entries = .MultipleProposalsFound cs ren) ↔
      1 < (scanDiffLines entries).1.length) ∧
    (∀ status1 old new status2 f,
      startsWith (lit "R") status1 = true → isProposalPath old = true →
      isProposalPath new = true → startsWith (lit "R") status2 = false →
      (status2 = lit "A" || status2 = lit "M") = true → isProposalPath f = true →
      findProposalFile [[status1, old, new], [status2, f]] =
        .MultipleProposalsFound [new, f] (some (old, new))) := by
  refine ⟨scanStep_rename, findProposalFile_none_iff, findProposalFile_multiple_iff, ?_⟩
  intro status1 old new status2 f hr1 ho hn hr2 ham hf
  have h1 := scanStep_rename ([], none) status1 old new [] hr1 ho hn
  have h2 := scanStep_addmod ([new], some (old, new)) status2 f [] hr2 ham hf
  unfold findProposalFile scanDiffLines
  simp only [List.foldl_cons, List.foldl_nil]
  simp only [List.nil_append] at h1
  rw [h1]
  simp only [List.singleton_append] at h2 ⊢
  rw [h2]

/-- Witness for C7 at a concrete two-entry diff. -/
theorem C7_candidate_rules_witness :
    findProposalFile
      [[lit "R100", lit "designs/a.md", lit "designs/b.md"],
       [lit "A", lit "designs/c.md"]] =
      .MultipleProposalsFound [lit "designs/b.md", lit "designs/c.md"]
        (some (lit "designs/a.md", lit "designs/b.md")) :=
  C7_candidate_rules.2.2.2 (lit "R100") (lit "designs/a.md") (lit "designs/b.md")
    (lit "A") (lit "designs/c.md") (by decide) (by decide) (by decide) (by decide)
    (by decide) (by decide)

/-- C8: for a fetched discussion, `verifyDiscussion` succeeds — setting
the session's discussion URL from the fetched record — exactly when the
body is nonempty and contains (case-insensitively) the proposal's own
path or one of the known under-review phrases; an empty body (an
unresolved discussion) is the not-found failure; a nonempty body
containing none of them is the mismatch failure carrying the logged
preview of the first `min 200 (length body)` characters. -/
theorem C8_verify_discussion (pf body url : Str) :
    (verifyDiscussion pf (.fetched body url) = .success url ↔
      body ≠ [] ∧
        (containsSub (toLowerStr body) (toLowerStr pf)
          || containsSub (toLowerStr body) (lit "coming soon")
          || containsSub (toLowerStr body) (lit "being prepared for review")
          || containsSub (toLowerStr body) (lit "draft under review")) = true) ∧
    (body = [] → verifyDiscussion pf (.fetched body url) = .notFound) ∧
    (body ≠ [] →
      (containsSub (toLowerStr body) (toLowerStr pf)
        || containsSub (toLowerStr body) (lit "coming soon")
        || containsSub (toLowerStr body) (lit "being prepared for review")
        || containsSub (toLowerStr body) (lit "draft under review")) = false →
      verifyDiscussion pf (.fetched body url) =
        .mismatch (body.take (minNat 200 body.length))) := by
  unfold verifyDiscussion
  by_cases hb : body = []
  · subst hb
    refine ⟨?_, fun _ => rfl, fun hne _ => absurd rfl hne⟩
    simp
  · by_cases hc : (containsSub (toLowerStr body) (toLowerStr pf)
        || containsSub (toLowerStr body) (lit "coming soon")
        || containsSub (toLowerStr body) (lit "being prepared for review")
        || containsSub (toLowerStr body) (lit "draft under review")) = true
    · refine ⟨?_, fun h => absurd h hb, fun _ hcf => ?_⟩
      · simp [hb, hc]
      · rw [hc] at hcf; exact absurd hcf (by simp)
    · refine ⟨?_, fun h => absurd h hb, fun _ _ => ?_⟩
      · simp [hb, hc]
      · simp [hb, hc]

/-- Witness for C8: a body containing the path verifies successfully,
and an unrelated body is a mismatch with its preview. -/
theorem C8_verify_discussion_witness :
    verifyDiscussion (lit "designs/demo.md")
      (.fetched (lit "see designs/demo.md here") (lit "u")) = .success (lit "u") ∧
    verifyDiscussion (lit "designs/demo.md")
      (.fetched (lit "nope") (lit "u")) = .mismatch (lit "nope") := by
  constructor
  · exact (C8_verify_discussion (lit "designs/demo.md")
      (lit "see designs/demo.md here") (lit "u")).1.mpr ⟨by decide, by decide⟩
  · have h := (C8_verify_discussion (lit "designs/demo.md")
      (lit "nope") (lit "u")).2.2 (by decide) (by decide)
    simpa using h

/-- C9 counterexample: a failure while resolving the discussion's
internal identifier is returned as an error and is fatal to the driver,
refuting the claim that every Content Publisher failure degrades to a
warning. -/
theorem C9_counterexample :
    updateDiscussionContent false
      { showResult := .ok [], nodeIdResult := .error "boom", updateResult := .ok () } =
      .error "failed to get discussion" ∧
    contentStageAborts false
      { showResult := .ok [], nodeIdResult := .error "boom", updateResult := .ok () } =
      true :=
  ⟨rfl, rfl⟩

/-- C9 (amended): only a failure of the final update mutation is
demoted to a warning and leaves the workflow running; a failure reading
the proposal content or resolving the discussion's internal identifier
is returned as an error, which the driver treats as fatal. -/
theorem C9_content_error_policy :
    (∀ (c n : Str) (e : String),
      updateDiscussionContent false
        { showResult := .ok c, nodeIdResult := .ok n, updateResult := .error e } =
        .ok () ∧
      contentStageAborts false
        { showResult := .ok c, nodeIdResult := .ok n, updateResult := .error e } =
        false) ∧
    (∀ (c : Str) (e : String) (upd : Except String Unit),
      contentStageAborts false
        { showResult := .ok c, nodeIdResult := .error e, updateResult := upd } = true) ∧
    (∀ (e : String) (nid : Except String Str) (upd : Except String Unit),
      contentStageAborts false
        { showResult := .error e, nodeIdResult := nid, updateResult := upd } = true) :=
  ⟨fun _ _ _ => ⟨rfl, rfl⟩, fun _ _ _ => rfl, fun _ _ _ => rfl⟩

/-- C3 counterexample: with the current branch `main` at tip commit `1`,
the commit reference `main` resolves to the branch tip, yet the Draft
rewrite dispatch takes the temporary-branch historical path, because the
code compares the reference against the literal string `HEAD` rather
than comparing the resolved commit with the branch tip. -/
theorem C3_counterexample :
    renameDispatch true false "main" = .historical ∧
    resolveRef c3Repo "main" = some 1 ∧
    lookupB c3Repo.branches c3Repo.cur = some 1 := by
  refine ⟨rfl, ?_, rfl⟩
  decide

/-- C3 (amended): for a Draft proposal outside dry-run, the direct
rename path is taken exactly when the session's commit reference is the
literal string `HEAD` — which always resolves to the current branch
tip; every other spelling of a reference, even one resolving to the
tip, takes the historical path. -/
theorem C3_direct_iff_literal_head :
    (∀ ref : String, renameDispatch true false ref = .direct ↔ ref = "HEAD") ∧
    (∀ r : Repo, resolveRef r "HEAD" = lookupB r.branches r.cur) := by
  constructor
  · intro ref
    unfold renameDispatch
    by_cases h : ref = "HEAD" <;> simp [h]
  · intro r
    unfold resolveRef
    simp

/-- Witness for C3's amended statement at the reference `HEAD` and the
fixture repository. -/
theorem C3_direct_iff_literal_head_witness :
    renameDispatch true false "HEAD" = .direct ∧
    resolveRef c3Repo "HEAD" = lookupB c3Repo.branches c3Repo.cur :=
  ⟨(C3_direct_iff_literal_head.1 "HEAD").mpr rfl,
   C3_direct_iff_literal_head.2 c3Repo⟩

/-- C4: the synchronizer is not idempotent and does not leave a curated
document alone.  On a document whose discussion-channel line already
holds a non-placeholder link and which has an author line, one run
inserts a second discussion-channel line after the author line (the
`updated` flag only records placeholder replacements, so the
insert-after-author branch runs even though a link field exists —
contradicting the comment above that branch in the source); and after a
placeholder has been replaced, a second run with the same URL changes
the document again. -/
theorem C4_duplicate_link_insertion :
    updateDiscussionLinkLines c4Url c4DocCurated =
      ([lit "# Test Proposal", lit "",
        lit "*   **Author(s)**: test@",
        lit "*   **Discussion Channel**: " ++ c4Url,
        lit "*   **Discussion Channel**: https://github.com/cue-lang/cue/discussions/9999",
        lit "", lit "Body."], true) ∧
    (updateDiscussionLinkLines c4Url c4DocCurated).1 ≠ c4DocCurated ∧
    (updateDiscussionLinkLines c4Url
        (updateDiscussionLinkLines c4Url c4DocPlaceholder).1).1 ≠
      (updateDiscussionLinkLines c4Url c4DocPlaceholder).1 :=
  ⟨by decide, by decide, by decide⟩

@[simp] theorem bind_run {α β : Type} (x : M α) (g : α → M β) (s : RunState) :
    (x >>= g) s =
      match x s with
      | (Except.ok a, s') => g a s'
      | (Except.error e, s') => (Except.error e, s') := rfl

@[simp] theorem pure_run {α : Type} (a : α) (s : RunState) :
    (pure a : M α) s = (Except.ok a, s) := rfl

@[simp] theorem getRepo_run (s : RunState) : getRepo s = (Except.ok s.repo, s) := rfl

@[simp] theorem modifyRepo_run (g : Repo → Repo) (s : RunState) :
    modifyRepo g s = (Except.ok (), { s with repo := g s.repo }) := rfl

@[simp] theorem mthrow_run {α : Type} (e : String) (s : RunState) :
    (mthrow e : M α) s = (Except.error e, s) := rfl

@[simp] theorem guardFault_false_run (e : String) (s : RunState) :
    guardFault false e s = (Except.ok (), s) := rfl

@[simp] theorem guardFault_true_run (e : String) (s : RunState) :
    guardFault true e s = (Except.error e, s) := rfl

/-! ### Association-list lemmas -/

theorem lookupB_setBranch_ne {bs : List (String × Nat)} {b b0 : String} (h : Nat)
    (hne : b ≠ b0) : lookupB (setBranch bs b0 h) b = lookupB bs b := by
  induction bs with
  | nil => rfl
  | cons p rest ih =>
    rcases p with ⟨k, v⟩
    by_cases hk : k = b0
    · subst hk
      have hkb : ¬ k = b := fun hh => hne hh.symm
      simp [setBranch, lookupB, hkb]
    · by_cases hkb : k = b
      · simp [setBranch, hk, lookupB, hkb, hne]
      · simp [setBranch, hk, lookupB, hkb, ih]

theorem lookupB_setBranch_self {bs : List (String × Nat)} {b : String} (h : Nat)
    (hsome : lookupB bs b ≠ none) : lookupB (setBranch bs b h) b = some h := by
  induction bs with
  | nil => exact absurd rfl hsome
  | cons p rest ih =>
    rcases p with ⟨k, v⟩
    by_cases hk : k = b
    · subst hk
      simp [setBranch, lookupB]
    · simp only [lookupB, if_neg hk] at hsome
      simp [setBranch, lookupB, hk, ih hsome]

theorem lookupB_removeBranch_self (bs : List (String × Nat)) (b : String) :
    lookupB (removeBranch bs b) b = none := by
  induction bs with
  | nil => rfl
  | cons p rest ih =>
    rcases p with ⟨k, v⟩
    by_cases hk : k = b
    · simp [removeBranch, hk, ih]
    · simp [removeBranch, hk, lookupB, ih]

theorem lookupB_removeBranch_ne {bs : List (String × Nat)} {b b0 : String}
    (hne : b ≠ b0) : lookupB (removeBranch bs b0) b = lookupB bs b := by
  induction bs with
  | nil => rfl
  | cons p rest ih =>
    rcases p with ⟨k, v⟩
    by_cases hk : k = b0
    · subst hk
      have hkb : ¬ k = b := fun hh => hne hh.symm
      simp [removeBranch, lookupB, hkb, ih]
    · by_cases hkb : k = b
      · simp [removeBranch, hk, lookupB, hkb, hne]
      · simp [removeBranch, hk, lookupB, hkb, ih]

theorem lookupC_cons_ne {store : List (Nat × Commit)} {k n : Nat} (c : Commit)
    (hne : k ≠ n) : lookupC ((n, c) :: store) k = lookupC store k := by
  simp [lookupC, fun h : n = k => hne (h ▸ rfl)]
  intro h
  exact absurd h.symm hne

theorem lookupC_mem {store : List (Nat × Commit)} {k : Nat} {c : Commit}
    (h : lookupC store k = some c) : (k, c) ∈ store := by
  induction store with
  | nil => exact absurd h (by simp [lookupC])
  | cons p rest ih =>
    rcases p with ⟨k0, c0⟩
    by_cases hk : k0 = k
    · subst hk
      simp [lookupC] at h
      simp [h]
    · simp [lookupC, hk] at h
      exact List.mem_cons_of_mem _ (ih h)

/-! ### Field lemmas for the git operations -/

theorem gitCherryPick_fields {c : Nat} {r r' : Repo} (h : gitCherryPick c r = some r') :
    r'.cur = r.cur ∧ r'.dirty = r.dirty ∧ r'.stash = r.stash ∧
    (∀ b, b ≠ r.cur → lookupB r'.branches b = lookupB r.branches b) := by
  unfold gitCherryPick at h
  split at h
  next =>
    simp only [Option.some.injEq] at h
    subst h
    refine ⟨rfl, rfl, rfl, fun b hb => ?_⟩
    exact lookupB_setBranch_ne _ hb
  next => exact absurd h (by simp)

theorem gitAmend_fields {r : Repo} {nh : Nat} {r' : Repo}
    (h : gitAmend r = some (nh, r')) :
    r'.cur = r.cur ∧ r'.dirty = r.dirty ∧ r'.stash = r.stash ∧
    (∀ b, b ≠ r.cur → lookupB r'.branches b = lookupB r.branches b) := by
  unfold gitAmend at h
  split at h
  next => exact absurd h (by simp)
  next =>
    split at h
    next => exact absurd h (by simp)
    next =>
      simp only [Option.some.injEq, Prod.mk.injEq] at h
      obtain ⟨-, h2⟩ := h
      subst h2
      refine ⟨rfl, rfl, rfl, fun b hb => ?_⟩
      exact lookupB_setBranch_ne _ hb

theorem gitCheckout_fields (b : String) (r : Repo) :
    (gitCheckout b r).branches = r.branches ∧
    (gitCheckout b r).dirty = r.dirty ∧ (gitCheckout b r).stash = r.stash ∧
    ((gitCheckout b r).cur = b ∨ (gitCheckout b r).cur = r.cur) := by
  unfold gitCheckout
  cases h : lookupB r.branches b <;> simp

theorem gitCheckout_cur_of_mem (b : String) (r : Repo)
    (h : lookupB r.branches b ≠ none) : (gitCheckout b r).cur = b := by
  unfold gitCheckout
  cases hl : lookupB r.branches b with
  | none => exact absurd hl h
  | some v => simp

theorem gitResetHard_fields (h : Nat) (r : Repo) :
    (gitResetHard h r).cur = r.cur ∧ (gitResetHard h r).dirty = r.dirty ∧
    (gitResetHard h r).stash = r.stash ∧
    (∀ b, b ≠ r.cur → lookupB (gitResetHard h r).branches b = lookupB r.branches b) :=
  ⟨rfl, rfl, rfl, fun _ hb => lookupB_setBranch_ne _ hb⟩

/-! ### Frame lemma for the cherry-pick loop -/

theorem pickAll_frame (f : Faults) (cs : List Nat) : ∀ (s : RunState),
    (pickAll f cs s).2.cleanupDone = s.cleanupDone ∧
    (pickAll f cs s).2.cleanupCount = s.cleanupCount ∧
    (pickAll f cs s).2.repo.cur = s.repo.cur ∧
    (pickAll f cs s).2.repo.dirty = s.repo.dirty ∧
    (pickAll f cs s).2.repo.stash = s.repo.stash ∧
    (∀ b, b ≠ s.repo.cur →
      lookupB (pickAll f cs s).2.repo.branches b = lookupB s.repo.branches b) := by
  induction cs with
  | nil => intro s; simp [pickAll]
  | cons c cs ih =>
    intro s
    cases hcf : f.cherryFail c
    · cases hcp : gitCherryPick c s.repo with
      | none =>
        simp [pickAll, hcf, hcp]
      | some r' =>
        have hfields := gitCherryPick_fields hcp
        have hout : pickAll f (c :: cs) s = pickAll f cs { s with repo := r' } := by
          simp [pickAll, hcf, hcp]
        rw [hout]
        have hrec := ih { s with repo := r' }
        refine ⟨hrec.1, hrec.2.1, ?_, ?_, ?_, ?_⟩
        · rw [hrec.2.2.1]; exact hfields.1
        · rw [hrec.2.2.2.1]; exact hfields.2.1
        · rw [hrec.2.2.2.2.1]; exact hfields.2.2.1
        · intro b hb
          have hb' : b ≠ r'.cur := by rw [hfields.1]; exact hb
          rw [hrec.2.2.2.2.2 b (by simp [hb'])]
          exact hfields.2.2.2 b hb
    · simp [pickAll, hcf]

/-! ### The setup, body and cleanup of the non-tip rewrite -/

theorem nonTipSetup_ok (f : Faults) (target : Nat) (s : RunState)
    (h1 : f.failStatus = false) (h2 : s.repo.dirty = true → f.failStashPush = false)
    (h3 : f.failBranchQuery = false) (h4 : f.failCheckoutTemp = false) :
    nonTipSetup f target s =
      (Except.ok (s.repo.cur, s.repo.dirty),
       { s with repo := setupRepo target s.repo }) := by
  unfold nonTipSetup setupRepo
  cases hd : s.repo.dirty
  · simp [h1, h3, h4, hd]
  · simp [h1, h3, h4, hd, h2 hd, gitStashPush]

theorem lookupB_resetHard_pres (h : Nat) (r : Repo) (b : String)
    (hpre : lookupB r.branches b ≠ none) :
    lookupB (gitResetHard h r).branches b ≠ none := by
  show lookupB (setBranch r.branches r.cur h) b ≠ none
  by_cases hbc : b = r.cur
  · subst hbc
    rw [lookupB_setBranch_self h hpre]
    simp
  · rw [lookupB_setBranch_ne h hbc]
    exact hpre

theorem lookupB_resetHard_ne (h : Nat) (r : Repo) (b : String) (hbc : b ≠ r.cur) :
    lookupB (gitResetHard h r).branches b = lookupB r.branches b :=
  lookupB_setBranch_ne h hbc

theorem nonTipBody_frame (f : Faults) (target : Nat) (orig : String) (s : RunState)
    (hcur : s.repo.cur = tempBranchName) (horig : orig ≠ tempBranchName) :
    (nonTipBody f target orig s).2.cleanupDone = s.cleanupDone ∧
    (nonTipBody f target orig s).2.cleanupCount = s.cleanupCount ∧
    (nonTipBody f target orig s).2.repo.dirty = s.repo.dirty ∧
    (nonTipBody f target orig s).2.repo.stash = s.repo.stash ∧
    (∀ e, (nonTipBody f target orig s).1 = Except.error e →
      lookupB (nonTipBody f target orig s).2.repo.branches orig =
        lookupB s.repo.branches orig) ∧
    (lookupB s.repo.branches orig ≠ none →
      lookupB (nonTipBody f target orig s).2.repo.branches orig ≠ none) := by
  have horig0 : orig ≠ s.repo.cur := by rw [hcur]; exact horig
  unfold nonTipBody
  cases hmv : f.failMv with
  | true => simp [hmv]
  | false =>
  cases hlink : f.failLink with
  | true => simp [hmv, hlink]
  | false =>
  cases hamend : f.failAmend with
  | true => simp [hmv, hlink, hamend]
  | false =>
  cases hga : gitAmend s.repo with
  | none => simp [hmv, hlink, hamend, hga]
  | some pr =>
  rcases pr with ⟨nh, r1⟩
  have hf1 := gitAmend_fields hga
  have horig1 : orig ≠ r1.cur := by rw [hf1.1]; exact horig0
  have hlook1 : lookupB r1.branches orig = lookupB s.repo.branches orig :=
    hf1.2.2.2 orig horig0
  cases hrp : f.failRevParse with
  | true => simp [hmv, hlink, hamend, hga, hrp, hf1.2.1, hf1.2.2.1, hlook1]
  | false =>
  simp only [hmv, hlink, hamend, hga, hrp, bind_run, guardFault_false_run,
    getRepo_run, modifyRepo_run, pure_run]
  by_cases hlen : (commitsAfter r1 target orig).length = 0
  · simp only [hlen, if_true, bind_run, guardFault_false_run, guardFault_true_run, getRepo_run, modifyRepo_run, pure_run, mthrow_run]
    cases hco : f.failCheckoutOrig with
    | true => simp [hf1.2.1, hf1.2.2.1, hlook1]
    | false =>
    cases hrs : f.failReset with
    | true =>
      have hck := gitCheckout_fields orig r1
      simp [hck.1, hck.2.1, hck.2.2.1, hf1.2.1, hf1.2.2.1, hlook1]
    | false =>
    have hck := gitCheckout_fields orig r1
    have hrh := gitResetHard_fields nh (gitCheckout orig r1)
    simp only [guardFault_false_run, bind_run, modifyRepo_run, pure_run]
    refine ⟨by trivial, by trivial, ?_, ?_, ?_, ?_⟩
    · show (gitResetHard nh (gitCheckout orig r1)).dirty = s.repo.dirty
      rw [hrh.2.1, hck.2.1, hf1.2.1]
    · show (gitResetHard nh (gitCheckout orig r1)).stash = s.repo.stash
      rw [hrh.2.2.1, hck.2.2.1, hf1.2.2.1]
    · intro e he
      exact absurd he (by simp)
    · intro hpre
      apply lookupB_resetHard_pres
      rw [hck.1, hlook1]
      exact hpre
  · simp only [hlen, if_false, bind_run, guardFault_false_run, guardFault_true_run, getRepo_run, modifyRepo_run, pure_run, mthrow_run]
    rcases hrun : pickAll f (commitsAfter r1 target orig) { s with repo := r1 }
      with ⟨res2, s2⟩
    have hpk := pickAll_frame f (commitsAfter r1 target orig) { s with repo := r1 }
    rw [hrun] at hpk
    simp only at hpk
    have hs2look : lookupB s2.repo.branches orig = lookupB s.repo.branches orig := by
      rw [hpk.2.2.2.2.2 orig horig1]
      exact hlook1
    have hs2dirty : s2.repo.dirty = s.repo.dirty := by
      rw [hpk.2.2.2.1, hf1.2.1]
    have hs2stash : s2.repo.stash = s.repo.stash := by
      rw [hpk.2.2.2.2.1, hf1.2.2.1]
    cases res2 with
    | error e2 =>
      simp only [hrun]
      exact ⟨hpk.1, hpk.2.1, hs2dirty, hs2stash,
        fun e he => hs2look, fun hpre => by rw [hs2look]; exact hpre⟩
    | ok u =>
      simp only [hrun]
      cases hco : f.failCheckoutOrig with
      | true =>
        simp only [guardFault_true_run, bind_run]
        exact ⟨hpk.1, hpk.2.1, hs2dirty, hs2stash,
          fun e he => hs2look, fun hpre => by rw [hs2look]; exact hpre⟩
      | false =>
      cases hrs : f.failReset with
      | true =>
        have hck := gitCheckout_fields orig s2.repo
        simp only [guardFault_false_run, guardFault_true_run, bind_run,
          modifyRepo_run, getRepo_run, pure_run]
        refine ⟨hpk.1, hpk.2.1, ?_, ?_, ?_, ?_⟩
        · show (gitCheckout orig s2.repo).dirty = s.repo.dirty
          rw [hck.2.1, hs2dirty]
        · show (gitCheckout orig s2.repo).stash = s.repo.stash
          rw [hck.2.2.1, hs2stash]
        · intro e he
          show lookupB (gitCheckout orig s2.repo).branches orig = _
          rw [hck.1, hs2look]
        · intro hpre
          show lookupB (gitCheckout orig s2.repo).branches orig ≠ none
          rw [hck.1, hs2look]
          exact hpre
      | false =>
      have hck := gitCheckout_fields orig s2.repo
      have hrh := gitResetHard_fields ((headHash s2.repo).getD 0) (gitCheckout orig s2.repo)
      simp only [guardFault_false_run, bind_run, modifyRepo_run, getRepo_run, pure_run]
      refine ⟨hpk.1, hpk.2.1, ?_, ?_, ?_, ?_⟩
      · show (gitResetHard _ (gitCheckout orig s2.repo)).dirty = s.repo.dirty
        rw [hrh.2.1, hck.2.1, hs2dirty]
      · show (gitResetHard _ (gitCheckout orig s2.repo)).stash = s.repo.stash
        rw [hrh.2.2.1, hck.2.2.1, hs2stash]
      · intro e he
        exact absurd he (by simp)
      · intro hpre
        apply lookupB_resetHard_pres
        rw [hck.1, hs2look]
        exact hpre

theorem cleanupRepo_fields (orig : String) (sc : Bool) (r : Repo)
    (hpres : lookupB r.branches orig ≠ none) :
    (cleanupRepo orig sc r).cur = orig ∧
    lookupB (cleanupRepo orig sc r).branches tempBranchName = none ∧
    (∀ b, b ≠ tempBranchName →
      lookupB (cleanupRepo orig sc r).branches b = lookupB r.branches b) ∧
    ((cleanupRepo orig sc r).dirty = if sc && r.stash then true else r.dirty) ∧
    ((cleanupRepo orig sc r).stash = if sc && r.stash then false else r.stash) := by
  unfold cleanupRepo
  have hck := gitCheckout_fields orig r
  have hcur1 : (gitCheckout orig r).cur = orig := gitCheckout_cur_of_mem orig r hpres
  cases hsc : sc <;> cases hst : r.stash <;>
    (simp [gitBranchDelete, gitStashPop, hcur1, hck.1, hck.2.1, hck.2.2.1, hst,
      lookupB_removeBranch_self] <;>
     exact fun b hb => lookupB_removeBranch_ne hb)

/-- Running the body, the explicit success-path cleanup call, and the
deferred cleanup call: the cleanup effects apply exactly once. -/
theorem wrapper_run (orig : String) (sc : Bool) (body : M Nat) (s1 : RunState)
    (hdone : (body s1).2.cleanupDone = false) :
    (match (do
        let h ← body
        cleanupM orig sc
        pure h : M Nat) s1 with
     | (res, s2) =>
       match cleanupM orig sc s2 with
       | (_, s3) => (res, s3)) =
    ((body s1).1,
     { repo := cleanupRepo orig sc (body s1).2.repo,
       cleanupDone := true, cleanupCount := (body s1).2.cleanupCount + 1 }) := by
  rcases hb : body s1 with ⟨res, sb⟩
  rw [hb] at hdone
  simp only at hdone
  cases res with
  | ok h =>
    simp only [bind_run, hb, pure_run]
    unfold cleanupM
    simp [hdone, hb]
  | error e =>
    simp only [bind_run, hb]
    unfold cleanupM
    simp [hdone, hb]

/-- C2: on every exit path of the Draft non-tip rewrite that reaches the
temporary-branch creation — whatever other commands fail, including any
cherry-pick — the cleanup body runs exactly once: the final state is
back on the original branch, the temporary branch is gone, and the
stash discipline restores the working tree's dirty state; and on every
failing exit the original branch's tip is exactly what it was before
the operation. -/
theorem C2_historical_cleanup (f : Faults) (r0 : Repo) (target : Nat)
    (h1 : f.failStatus = false) (h2 : r0.dirty = true → f.failStashPush = false)
    (h3 : f.failBranchQuery = false) (h4 : f.failCheckoutTemp = false)
    (htip : lookupB r0.branches r0.cur ≠ none)
    (htemp : lookupB r0.branches tempBranchName = none)
    (hstash : r0.stash = false) :
    (renameHistorical f target r0).2.cleanupCount = 1 ∧
    (renameHistorical f target r0).2.repo.cur = r0.cur ∧
    lookupB (renameHistorical f target r0).2.repo.branches tempBranchName = none ∧
    (renameHistorical f target r0).2.repo.dirty = r0.dirty ∧
    (renameHistorical f target r0).2.repo.stash = false ∧
    (∀ e, (renameHistorical f target r0).1 = Except.error e →
      lookupB (renameHistorical f target r0).2.repo.branches r0.cur =
        lookupB r0.branches r0.cur) := by
  have hcur_ne : r0.cur ≠ tempBranchName := by
    intro hh
    rw [hh] at htip
    exact htip htemp
  have hsr_look : ∀ b, b ≠ tempBranchName →
      lookupB (setupRepo target r0).branches b = lookupB r0.branches b := by
    intro b hb
    show lookupB ((tempBranchName, target) ::
      (if r0.dirty then gitStashPush r0 else r0).branches) b = _
    have hne : ¬ tempBranchName = b := fun hh => hb hh.symm
    cases hd : r0.dirty <;> simp [lookupB, hne, gitStashPush]
  have hsr_cur : (setupRepo target r0).cur = tempBranchName := rfl
  have hsr_dirty : (setupRepo target r0).dirty = false := by
    cases hd : r0.dirty <;> simp [setupRepo, gitCheckoutNew, gitStashPush, hd]
  have hsr_stash : (setupRepo target r0).stash = r0.dirty := by
    cases hd : r0.dirty <;>
      simp [setupRepo, gitCheckoutNew, gitStashPush, hd, hstash]
  have hsetup := nonTipSetup_ok f target
    { repo := r0, cleanupDone := false, cleanupCount := 0 } h1 h2 h3 h4
  have hframe := nonTipBody_frame f target r0.cur
    { repo := setupRepo target r0, cleanupDone := false, cleanupCount := 0 }
    hsr_cur hcur_ne
  simp only at hframe
  have hdone : (nonTipBody f target r0.cur
      { repo := setupRepo target r0, cleanupDone := false,
        cleanupCount := 0 }).2.cleanupDone = false := hframe.1
  have hrun : renameHistorical f target r0 =
      ((nonTipBody f target r0.cur
          { repo := setupRepo target r0, cleanupDone := false,
            cleanupCount := 0 }).1,
       { repo := cleanupRepo r0.cur r0.dirty
           (nonTipBody f target r0.cur
             { repo := setupRepo target r0, cleanupDone := false,
               cleanupCount := 0 }).2.repo,
         cleanupDone := true,
         cleanupCount := (nonTipBody f target r0.cur
             { repo := setupRepo target r0, cleanupDone := false,
               cleanupCount := 0 }).2.cleanupCount + 1 }) := by
    unfold renameHistorical
    rw [hsetup]
    exact wrapper_run r0.cur r0.dirty (nonTipBody f target r0.cur) _ hdone
  have hpres : lookupB (nonTipBody f target r0.cur
      { repo := setupRepo target r0, cleanupDone := false,
        cleanupCount := 0 }).2.repo.branches r0.cur ≠ none := by
    apply hframe.2.2.2.2.2
    show lookupB (setupRepo target r0).branches r0.cur ≠ none
    rw [hsr_look r0.cur hcur_ne]
    exact htip
  have hclean := cleanupRepo_fields r0.cur r0.dirty
    (nonTipBody f target r0.cur
      { repo := setupRepo target r0, cleanupDone := false,
        cleanupCount := 0 }).2.repo hpres
  have hbdirty : (nonTipBody f target r0.cur
      { repo := setupRepo target r0, cleanupDone := false,
        cleanupCount := 0 }).2.repo.dirty = false := by
    rw [hframe.2.2.1]
    exact hsr_dirty
  have hbstash : (nonTipBody f target r0.cur
      { repo := setupRepo target r0, cleanupDone := false,
        cleanupCount := 0 }).2.repo.stash = r0.dirty := by
    rw [hframe.2.2.2.1]
    exact hsr_stash
  rw [hrun]
  refine ⟨?_, hclean.1, hclean.2.1, ?_, ?_, ?_⟩
  · show (nonTipBody f target r0.cur _).2.cleanupCount + 1 = 1
    rw [hframe.2.1]
  · show (cleanupRepo r0.cur r0.dirty _).dirty = r0.dirty
    rw [hclean.2.2.2.1, hbdirty, hbstash]
    cases r0.dirty <;> simp
  · show (cleanupRepo r0.cur r0.dirty _).stash = false
    rw [hclean.2.2.2.2, hbstash]
    cases r0.dirty <;> simp
  · intro e he
    simp only at he
    show lookupB (cleanupRepo r0.cur r0.dirty _).branches r0.cur = _
    rw [hclean.2.2.1 r0.cur hcur_ne, hframe.2.2.2.2.1 e he]
    exact hsr_look r0.cur hcur_ne

/-- Witness for C2: a run over `A → B → C` rewriting `B`, with the
cherry-pick of the descendant `C` (hash 2) failing. -/
theorem C2_historical_cleanup_witness :
    (renameHistorical { cherryFail := fun h => decide (h = 2) } 1
        (mkLinear 10 20 [30])).2.cleanupCount = 1 ∧
    (renameHistorical { cherryFail := fun h => decide (h = 2) } 1
        (mkLinear 10 20 [30])).2.repo.cur = (mkLinear 10 20 [30]).cur ∧
    lookupB (renameHistorical { cherryFail := fun h => decide (h = 2) } 1
        (mkLinear 10 20 [30])).2.repo.branches tempBranchName = none ∧
    (renameHistorical { cherryFail := fun h => decide (h = 2) } 1
        (mkLinear 10 20 [30])).2.repo.dirty = (mkLinear 10 20 [30]).dirty ∧
    (renameHistorical { cherryFail := fun h => decide (h = 2) } 1
        (mkLinear 10 20 [30])).2.repo.stash = false ∧
    (∀ e, (renameHistorical { cherryFail := fun h => decide (h = 2) } 1
        (mkLinear 10 20 [30])).1 = Except.error e →
      lookupB (renameHistorical { cherryFail := fun h => decide (h = 2) } 1
          (mkLinear 10 20 [30])).2.repo.branches (mkLinear 10 20 [30]).cur =
        lookupB (mkLinear 10 20 [30]).branches (mkLinear 10 20 [30]).cur) :=
  C2_historical_cleanup { cherryFail := fun h => decide (h = 2) }
    (mkLinear 10 20 [30]) 1 rfl (fun _ => rfl) rfl rfl (by decide) (by decide) rfl

/-! ### Store and chain lemmas for the constructed linear history -/

theorem lookupC_append_none {xs ys : List (Nat × Commit)} {k : Nat}
    (h : lookupC xs k = none) : lookupC (xs ++ ys) k = lookupC ys k := by
  induction xs with
  | nil => rfl
  | cons p rest ih =>
    rcases p with ⟨k0, c0⟩
    by_cases hk : k0 = k
    · simp [lookupC, hk] at h
    · simp only [lookupC, hk, if_false, List.cons_append] at h ⊢
      exact ih h

theorem descStore_lookup_lt {ds : List Nat} : ∀ {h par k : Nat}, k < h →
    lookupC (descStore ds h par) k = none := by
  induction ds with
  | nil => intro h par k _; rfl
  | cons g gs ih =>
    intro h par k hk
    have hne : ¬ h = k := fun hh => absurd (hh ▸ hk) (lt_irrefl h)
    simp only [descStore, lookupC, hne, if_false]
    exact ih (Nat.lt_succ_of_lt hk)

theorem descStore_lookup {ds : List Nat} : ∀ {h par j : Nat} (hj : j < ds.length),
    lookupC (descStore ds h par) (h + j) =
      some { parent := some (if j = 0 then par else h + j - 1),
             change := ds.get ⟨j, hj⟩, renamed := false } := by
  induction ds with
  | nil => intro h par j hj; exact absurd hj (by simp)
  | cons g gs ih =>
    intro h par j hj
    cases j with
    | zero =>
      show lookupC ((h, { parent := some par, change := g, renamed := false })
        :: descStore gs (h + 1) h) (h + 0) = _
      simp [lookupC]
    | succ j' =>
      have hne : ¬ h = h + (j' + 1) := by omega
      have hne2 : ¬ h = h + 1 + j' := by omega
      have hj' : j' < gs.length := by simpa using hj
      have harith : h + (j' + 1) = (h + 1) + j' := by omega
      simp only [descStore, lookupC, hne, hne2, if_false, harith]
      rw [ih hj']
      have hpar : (if j' = 0 then h else (h + 1) + j' - 1) = h + (j' + 1) - 1 := by
        cases j' with
        | zero => simp
        | succ k => simp only [if_neg (Nat.succ_ne_zero k)]; omega
      rw [hpar]
      simp

theorem storeBelow_mono {m n : Nat} {store : List (Nat × Commit)} (hmn : m ≤ n)
    (h : storeBelow m store) : storeBelow n store := by
  intro pr hpr
  exact ⟨Nat.lt_of_lt_of_le (h pr hpr).1 hmn,
    fun p hp => Nat.lt_of_lt_of_le ((h pr hpr).2 p hp) hmn⟩

theorem storeBelow_cons {n k : Nat} {c : Commit} {store : List (Nat × Commit)}
    (hk : k < n) (hp : ∀ p, c.parent = some p → p < n) (h : storeBelow n store) :
    storeBelow n ((k, c) :: store) := by
  intro pr hpr
  rcases List.mem_cons.mp hpr with hpr | hpr
  · subst hpr
    exact ⟨hk, hp⟩
  · exact h pr hpr

theorem descStore_below {ds : List Nat} : ∀ {h par n : Nat},
    h + ds.length ≤ n → par < n → storeBelow n (descStore ds h par) := by
  induction ds with
  | nil => intro h par n _ _ pr hpr; exact absurd hpr (by simp [descStore])
  | cons g gs ih =>
    intro h par n hlen hpar
    have hl : h + (gs.length + 1) ≤ n := by simpa using hlen
    refine storeBelow_cons (by omega) (fun p hp => ?_) (ih (by omega) (by omega))
    have hpp : par = p := by injection hp
    omega

theorem chainDataS_cons_fresh {n : Nat} {c : Commit} {store : List (Nat × Commit)}
    (hbelow : storeBelow n store) : ∀ (fuel h : Nat), h < n →
    chainDataS ((n, c) :: store) fuel h = chainDataS store fuel h := by
  intro fuel
  induction fuel with
  | zero => intro h _; rfl
  | succ f ih =>
    intro h hh
    have hne : h ≠ n := Nat.ne_of_lt hh
    simp only [chainDataS, lookupC_cons_ne c hne]
    cases hl : lookupC store h with
    | none => rfl
    | some cm =>
      have hmem := lookupC_mem hl
      cases hp : cm.parent with
      | none => simp [hp]
      | some p =>
        have hpn : p < n := (hbelow _ hmem).2 p hp
        simp [hp, ih p hpn]

theorem walkDone_cons_fresh {n : Nat} {c : Commit} {store : List (Nat × Commit)}
    (hbelow : storeBelow n store) : ∀ (fuel h : Nat), h < n →
    walkDone ((n, c) :: store) fuel h = walkDone store fuel h := by
  intro fuel
  induction fuel with
  | zero => intro h _; rfl
  | succ f ih =>
    intro h hh
    have hne : h ≠ n := Nat.ne_of_lt hh
    simp only [walkDone, lookupC_cons_ne c hne]
    cases hl : lookupC store h with
    | none => rfl
    | some cm =>
      have hmem := lookupC_mem hl
      cases hp : cm.parent with
      | none => simp [hp]
      | some p =>
        have hpn : p < n := (hbelow _ hmem).2 p hp
        simp [hp, ih p hpn]

theorem walkDone_mono {store : List (Nat × Commit)} :
    ∀ {f f' h : Nat}, walkDone store f h = true → f ≤ f' →
    walkDone store f' h = true := by
  intro f
  induction f with
  | zero => intro f' h hd _; exact absurd hd (by simp [walkDone])
  | succ g ih =>
    intro f' h hd hle
    cases f' with
    | zero => omega
    | succ f'' =>
      simp only [walkDone] at hd ⊢
      cases hl : lookupC store h with
      | none => simp [hl]
      | some cm =>
        simp only [hl] at hd ⊢
        cases hp : cm.parent with
        | none => simp [hp]
        | some p =>
          simp only [hp] at hd ⊢
          exact ih hd (by omega)

theorem chainDataS_of_done {store : List (Nat × Commit)} :
    ∀ {f f' h : Nat}, walkDone store f h = true → f ≤ f' →
    chainDataS store f' h = chainDataS store f h := by
  intro f
  induction f with
  | zero => intro f' h hd _; exact absurd hd (by simp [walkDone])
  | succ g ih =>
    intro f' h hd hle
    cases f' with
    | zero => omega
    | succ f'' =>
      simp only [walkDone] at hd
      simp only [chainDataS]
      cases hl : lookupC store h with
      | none => simp [hl]
      | some cm =>
        simp only [hl] at hd ⊢
        cases hp : cm.parent with
        | none => simp [hp]
        | some p =>
          simp only [hp] at hd ⊢
          rw [ih hd (by omega)]

theorem range'_concat1 (s n : Nat) :
    List.range' s (n + 1) = List.range' s n ++ [s + n] := by
  have h := @List.range'_concat 1 s n
  simpa using h

theorem lookupC_append_some {xs ys : List (Nat × Commit)} {k : Nat} {c : Commit}
    (h : lookupC xs k = some c) : lookupC (xs ++ ys) k = some c := by
  induction xs with
  | nil => exact absurd h (by simp [lookupC])
  | cons p rest ih =>
    rcases p with ⟨k0, c0⟩
    by_cases hk : k0 = k
    · simp only [lookupC, hk, if_true] at h
      simp [lookupC, hk, h]
    · simp only [lookupC, hk, if_false, List.cons_append] at h ⊢
      exact ih h

theorem lookupC_cons_self {store : List (Nat × Commit)} (n : Nat) (c : Commit) :
    lookupC ((n, c) :: store) n = some c := by
  simp [lookupC]

theorem storeBelow_append {n : Nat} {xs ys : List (Nat × Commit)}
    (hx : storeBelow n xs) (hy : storeBelow n ys) : storeBelow n (xs ++ ys) := by
  intro pr hpr
  rcases List.mem_append.mp hpr with hm | hm
  · exact hx pr hm
  · exact hy pr hm

theorem descStore_length (ds : List Nat) : ∀ (h par : Nat),
    (descStore ds h par).length = ds.length := by
  induction ds with
  | nil => intro h par; rfl
  | cons g gs ih => intro h par; simp [descStore, ih]

theorem forall2_range' (P : Nat → Nat → Prop) (gs : List Nat) : ∀ (a : Nat),
    (∀ j (hj : j < gs.length), P (a + j) (gs.get ⟨j, hj⟩)) →
    List.Forall₂ P (List.range' a gs.length) gs := by
  induction gs with
  | nil => intro a _; exact List.Forall₂.nil
  | cons g gs ih =>
    intro a h
    rw [show (g :: gs).length = gs.length + 1 from rfl, List.range'_succ a gs.length 1]
    refine List.Forall₂.cons ?_ (ih (a + 1) (fun j hj => ?_))
    · simpa using h 0 (by simp)
    · have := h (j + 1) (by simpa using Nat.succ_lt_succ hj)
      have harith : a + (j + 1) = a + 1 + j := by omega
      rw [harith] at this
      simpa using this

theorem walkBack_chain (r : Repo) (L : Nat)
    (hlk : ∀ j, j < L → ∃ cm, lookupC r.store (2 + j) = some cm ∧
      cm.parent = some (1 + j)) :
    ∀ j, j ≤ L → ∀ f, j < f → walkBack r 1 f (1 + j) = (List.range' 2 j).reverse := by
  intro j
  induction j with
  | zero =>
    intro _ f hf
    cases f with
    | zero => omega
    | succ f' => simp [walkBack]
  | succ j' ih =>
    intro hj f hf
    cases f with
    | zero => omega
    | succ f' =>
      obtain ⟨cm, hcm, hpar⟩ := hlk j' (by omega)
      have hne : ¬ (1 + (j' + 1) = 1) := by omega
      have hh : (1 : Nat) + (j' + 1) = 2 + j' := by omega
      simp only [walkBack, hne, if_false, hh, hcm, hpar]
      rw [ih (by omega) f' (by omega)]
      rw [range'_concat1 2 j']
      simp
      omega

theorem pickAll_chain (f : Faults) : ∀ {cs gs : List Nat} (s : RunState) (hd F : Nat),
    List.Forall₂ (fun c g => f.cherryFail c = false ∧ c < s.repo.next ∧
      ∃ cm, lookupC s.repo.store c = some cm ∧ cm.change = g ∧ cm.renamed = false)
      cs gs →
    headHash s.repo = some hd →
    hd < s.repo.next →
    storeBelow s.repo.next s.repo.store →
    walkDone s.repo.store F hd = true →
    (pickAll f cs s).1 = Except.ok () ∧
    (pickAll f cs s).2.repo.next = s.repo.next + cs.length ∧
    (pickAll f cs s).2.repo.store.length = s.repo.store.length + cs.length ∧
    headHash (pickAll f cs s).2.repo =
      some (if cs.length = 0 then hd else s.repo.next + cs.length - 1) ∧
    (if cs.length = 0 then hd else s.repo.next + cs.length - 1) <
      (pickAll f cs s).2.repo.next ∧
    storeBelow (pickAll f cs s).2.repo.next (pickAll f cs s).2.repo.store ∧
    walkDone (pickAll f cs s).2.repo.store (F + cs.length)
      (if cs.length = 0 then hd else s.repo.next + cs.length - 1) = true ∧
    chainDataS (pickAll f cs s).2.repo.store (F + cs.length)
      (if cs.length = 0 then hd else s.repo.next + cs.length - 1) =
      gs.reverse.map (fun g => (g, false)) ++ chainDataS s.repo.store F hd := by
  intro cs
  induction cs with
  | nil =>
    intro gs s hd F hf hh hlt hbelow hwd
    cases hf
    exact ⟨rfl, rfl, rfl, hh, hlt, hbelow, hwd, rfl⟩
  | cons c cs' ih0 =>
    intro gs s hd F hf hh hlt hbelow hwd
    cases hf with
    | cons hcg hrest =>
    rename_i g gs'
    obtain ⟨hcf, hclt, cm, hlkc, hch, hrn⟩ := hcg
    have hcp : gitCherryPick c s.repo = some
        { s.repo with
          store := (s.repo.next,
            { parent := some hd, change := cm.change, renamed := cm.renamed })
            :: s.repo.store,
          branches := setBranch s.repo.branches s.repo.cur s.repo.next,
          next := s.repo.next + 1 } := by
      unfold gitCherryPick
      rw [hh, hlkc]
    have hout : pickAll f (c :: cs') s = pickAll f cs'
        { s with repo :=
          { s.repo with
            store := (s.repo.next,
              { parent := some hd, change := cm.change, renamed := cm.renamed })
              :: s.repo.store,
            branches := setBranch s.repo.branches s.repo.cur s.repo.next,
            next := s.repo.next + 1 } } := by
      simp [pickAll, hcf, hcp]
    have hh' : headHash
        { s.repo with
          store := (s.repo.next,
            { parent := some hd, change := cm.change, renamed := cm.renamed })
            :: s.repo.store,
          branches := setBranch s.repo.branches s.repo.cur s.repo.next,
          next := s.repo.next + 1 } = some s.repo.next := by
      show lookupB (setBranch s.repo.branches s.repo.cur s.repo.next) s.repo.cur = _
      have hpre : lookupB s.repo.branches s.repo.cur ≠ none := by
        show headHash s.repo ≠ none
        rw [hh]; simp
      exact lookupB_setBranch_self _ hpre
    have hbelow' : storeBelow (s.repo.next + 1)
        ((s.repo.next,
          { parent := some hd, change := cm.change, renamed := cm.renamed })
          :: s.repo.store) := by
      refine storeBelow_cons (by omega) (fun p hp => ?_)
        (storeBelow_mono (by omega) hbelow)
      simp only at hp
      injection hp with hp
      omega
    have hwd' : walkDone
        ((s.repo.next,
          { parent := some hd, change := cm.change, renamed := cm.renamed })
          :: s.repo.store) (F + 1) s.repo.next = true := by
      simp only [walkDone, lookupC_cons_self]
      rw [walkDone_cons_fresh hbelow F hd hlt]
      exact hwd
    have hrest' : List.Forall₂ (fun c' g' => f.cherryFail c' = false ∧
        c' < s.repo.next + 1 ∧
        ∃ cm', lookupC
          ((s.repo.next,
            { parent := some hd, change := cm.change, renamed := cm.renamed })
            :: s.repo.store) c' = some cm' ∧ cm'.change = g' ∧ cm'.renamed = false)
        cs' gs' := by
      refine List.Forall₂.imp (fun c' g' hp => ?_) hrest
      obtain ⟨h1, h2, cm', hl, hc, hr⟩ := hp
      exact ⟨h1, by omega, cm',
        by rw [lookupC_cons_ne _ (Nat.ne_of_lt h2)]; exact hl, hc, hr⟩
    have hrec := ih0 { s with repo :=
        { s.repo with
          store := (s.repo.next,
            { parent := some hd, change := cm.change, renamed := cm.renamed })
            :: s.repo.store,
          branches := setBranch s.repo.branches s.repo.cur s.repo.next,
          next := s.repo.next + 1 } } s.repo.next (F + 1)
      hrest' hh' (by simp) hbelow' hwd'
    rw [hout]
    simp only at hrec
    obtain ⟨hok, hnext, hslen, hhead, hltout, hbout, hwout, hcout⟩ := hrec
    have hlen1 : (c :: cs').length = cs'.length + 1 := rfl
    have hne0 : ¬ (c :: cs').length = 0 := by simp
    have htipval : (if cs'.length = 0 then s.repo.next
        else s.repo.next + 1 + cs'.length - 1) =
        s.repo.next + (c :: cs').length - 1 := by
      by_cases h0 : cs'.length = 0 <;> simp [h0, hlen1] <;> omega
    have hfuel : F + 1 + cs'.length = F + (c :: cs').length := by
      rw [hlen1]; omega
    refine ⟨hok, ?_, ?_, ?_, ?_, hbout, ?_, ?_⟩
    · rw [hnext, hlen1]; omega
    · rw [hslen]; simp [hlen1]; omega
    · rw [hhead, htipval, if_neg hne0]
    · rw [if_neg hne0, ← htipval]; exact hltout
    · rw [if_neg hne0, ← htipval, ← hfuel]; exact hwout
    · rw [if_neg hne0, ← htipval, ← hfuel, hcout]
      have hstep : chainDataS
          ((s.repo.next,
            { parent := some hd, change := cm.change, renamed := cm.renamed })
            :: s.repo.store) (F + 1) s.repo.next =
          (g, false) :: chainDataS s.repo.store F hd := by
        simp only [chainDataS, lookupC_cons_self]
        rw [chainDataS_cons_fresh hbelow F hd hlt, hch, hrn]
      rw [hstep]
      simp [List.reverse_cons, List.map_append, List.append_assoc]

/-! ### Computation of the non-tip rewrite on the linear fixture -/

theorem gitCheckout_store (b : String) (r : Repo) : (gitCheckout b r).store = r.store := by
  unfold gitCheckout
  cases lookupB r.branches b <;> rfl

theorem gitStashPop_store (r : Repo) : (gitStashPop r).store = r.store := by
  unfold gitStashPop
  split <;> rfl

theorem cleanupRepo_store (o : String) (sc : Bool) (r : Repo) :
    (cleanupRepo o sc r).store = r.store := by
  unfold cleanupRepo
  cases sc <;> simp [gitStashPop_store, gitBranchDelete, gitCheckout_store]

theorem setupRepo_linear (b t : Nat) (ds : List Nat) :
    setupRepo 1 (mkLinear b t ds) = setupLinear b t ds := rfl

theorem setupLinear_lookup1 (b t : Nat) (ds : List Nat) :
    lookupC (setupLinear b t ds).store 1 =
      some { parent := some 0, change := t, renamed := false } := by
  show lookupC (descStore ds 2 1 ++ _) 1 = _
  rw [lookupC_append_none (descStore_lookup_lt (by omega))]
  simp [lookupC]

theorem gitAmend_linear (b t : Nat) (ds : List Nat) :
    gitAmend (setupLinear b t ds) = some (ds.length + 2, amendedLinear b t ds) := by
  have hhh : headHash (setupLinear b t ds) = some 1 := by
    show lookupB [(tempBranchName, 1), ("main", ds.length + 1)] tempBranchName = some 1
    simp [lookupB]
  unfold gitAmend
  rw [hhh]
  simp only [setupLinear_lookup1]
  simp [setupLinear, amendedLinear, setBranch]

theorem amendedLinear_head (b t : Nat) (ds : List Nat) :
    headHash (amendedLinear b t ds) = some (ds.length + 2) := by
  show lookupB [(tempBranchName, ds.length + 2), ("main", ds.length + 1)]
    tempBranchName = _
  simp [lookupB]

theorem amendedLinear_main (b t : Nat) (ds : List Nat) :
    lookupB (amendedLinear b t ds).branches "main" = some (ds.length + 1) := by
  have hne : ¬ (tempBranchName = "main") := by decide
  show lookupB [(tempBranchName, ds.length + 2), ("main", ds.length + 1)] "main" = _
  simp [lookupB, hne]

theorem amendedLinear_lookup_desc (b t : Nat) (ds : List Nat) {j : Nat}
    (hj : j < ds.length) :
    lookupC (amendedLinear b t ds).store (2 + j) =
      some { parent := some (if j = 0 then 1 else 2 + j - 1),
             change := ds.get ⟨j, hj⟩, renamed := false } := by
  show lookupC ((ds.length + 2, _) :: (descStore ds 2 1 ++ _)) (2 + j) = _
  rw [lookupC_cons_ne _ (by omega)]
  exact lookupC_append_some (descStore_lookup hj)

theorem amendedLinear_lookup0 (b t : Nat) (ds : List Nat) :
    lookupC (amendedLinear b t ds).store 0 =
      some { parent := none, change := b, renamed := false } := by
  show lookupC ((ds.length + 2, _) :: (descStore ds 2 1 ++ _)) 0 = _
  rw [lookupC_cons_ne _ (by omega)]
  rw [lookupC_append_none (descStore_lookup_lt (by omega))]
  simp [lookupC]

theorem amendedLinear_lookup_top (b t : Nat) (ds : List Nat) :
    lookupC (amendedLinear b t ds).store (ds.length + 2) =
      some { parent := some 0, change := t, renamed := true } :=
  lookupC_cons_self _ _

theorem amendedLinear_walkDone (b t : Nat) (ds : List Nat) :
    walkDone (amendedLinear b t ds).store 2 (ds.length + 2) = true := by
  simp only [walkDone, amendedLinear_lookup_top, amendedLinear_lookup0]

theorem amendedLinear_chain (b t : Nat) (ds : List Nat) :
    chainDataS (amendedLinear b t ds).store 2 (ds.length + 2) =
      [(t, true), (b, false)] := by
  simp only [chainDataS, amendedLinear_lookup_top, amendedLinear_lookup0]

theorem amendedLinear_below (b t : Nat) (ds : List Nat) :
    storeBelow (ds.length + 3) (amendedLinear b t ds).store := by
  refine storeBelow_cons (by omega) (fun p hp => ?_)
    (storeBelow_append (descStore_below (by omega) (by omega)) ?_)
  · simp only at hp
    injection hp with hp
    omega
  · intro pr hpr
    simp only [List.mem_cons, List.mem_singleton] at hpr
    rcases hpr with hpr | hpr | hpr
    · subst hpr
      refine ⟨by omega, fun p hp => ?_⟩
      simp only at hp
      injection hp with hp
      omega
    · subst hpr
      refine ⟨by omega, fun p hp => ?_⟩
      simp only at hp
      exact absurd hp (by simp)
    · exact absurd hpr (by simp)

theorem amendedLinear_store_length (b t : Nat) (ds : List Nat) :
    (amendedLinear b t ds).store.length = ds.length + 3 := by
  simp [amendedLinear, descStore_length]

theorem commitsAfter_amended (b t : Nat) (ds : List Nat) :
    commitsAfter (amendedLinear b t ds) 1 "main" = List.range' 2 ds.length := by
  have hlk : ∀ j, j < ds.length → ∃ cm,
      lookupC (amendedLinear b t ds).store (2 + j) = some cm ∧
      cm.parent = some (1 + j) := by
    intro j hj
    refine ⟨_, amendedLinear_lookup_desc b t ds hj, ?_⟩
    show some (if j = 0 then 1 else 2 + j - 1) = some (1 + j)
    cases j with
    | zero => rfl
    | succ k =>
      simp only [if_neg (Nat.succ_ne_zero k)]
      congr 1
      omega
  have hw := walkBack_chain (amendedLinear b t ds) ds.length hlk ds.length le_rfl
    ((amendedLinear b t ds).store.length + 1)
    (by rw [amendedLinear_store_length]; omega)
  unfold commitsAfter
  rw [amendedLinear_main]
  show (walkBack (amendedLinear b t ds) 1
    ((amendedLinear b t ds).store.length + 1) (ds.length + 1)).reverse = _
  rw [show ds.length + 1 = 1 + ds.length from by omega, hw, List.reverse_reverse]

/-- C1: on the linear history `A(0) → B(1) → descendants` with `main` at
the tip and target commit `B`, the fault-free non-tip rewrite succeeds
returning the amended commit `B' = ds.length + 2`; afterwards the session
is back on `main`; with no descendants `main` is repointed to `B'`
directly, and with `N > 0` descendants `main` is repointed to the
replayed tip `2N + 2` — which is not `B'` — whose history carries the
descendants' changes (oldest nearest the tip's root side) above the
amended commit and the root, i.e. every descendant is replayed above
`B'` in order. -/
theorem C1_descendant_replay (b t : Nat) (ds : List Nat) :
    (renameHistorical noFaults 1 (mkLinear b t ds)).1 =
      Except.ok (ds.length + 2) ∧
    (renameHistorical noFaults 1 (mkLinear b t ds)).2.repo.cur = "main" ∧
    lookupB (renameHistorical noFaults 1 (mkLinear b t ds)).2.repo.branches
        "main" =
      some (if ds.length = 0 then ds.length + 2 else 2 * ds.length + 2) ∧
    (0 < ds.length →
      lookupB (renameHistorical noFaults 1 (mkLinear b t ds)).2.repo.branches
          "main" ≠ some (ds.length + 2)) ∧
    tipChain (renameHistorical noFaults 1 (mkLinear b t ds)).2.repo "main" =
      ds.reverse.map (fun g => (g, false)) ++ [(t, true), (b, false)] := by
  by_cases hnil : ds = []
  · subst hnil
    exact ⟨rfl, rfl, rfl, fun h => absurd h (by simp), rfl⟩
  have hL : 0 < ds.length := List.length_pos.mpr hnil
  have hL0 : ¬ ds.length = 0 := by omega
  have hmainne : "main" ≠ tempBranchName := by decide
  -- setup
  have hs0 : nonTipSetup noFaults 1
      { repo := mkLinear b t ds, cleanupDone := false, cleanupCount := 0 } =
      (Except.ok ("main", false),
       { repo := setupLinear b t ds, cleanupDone := false, cleanupCount := 0 }) :=
    nonTipSetup_ok noFaults 1
      { repo := mkLinear b t ds, cleanupDone := false, cleanupCount := 0 }
      rfl (fun _ => rfl) rfl rfl
  -- the cherry-pick loop on the amended repository
  have hlenr : (List.range' 2 ds.length).length = ds.length := by simp
  have hfor : List.Forall₂ (fun c g => noFaults.cherryFail c = false ∧
      c < (amendedLinear b t ds).next ∧ ∃ cm,
        lookupC (amendedLinear b t ds).store c = some cm ∧ cm.change = g ∧
        cm.renamed = false) (List.range' 2 ds.length) ds := by
    refine forall2_range' _ ds 2 (fun j hj => ⟨rfl, ?_, ?_⟩)
    · show 2 + j < ds.length + 3
      omega
    · exact ⟨_, amendedLinear_lookup_desc b t ds hj, rfl, rfl⟩
  have hpickfull := pickAll_chain noFaults
    { repo := amendedLinear b t ds, cleanupDone := false, cleanupCount := 0 }
    (ds.length + 2) 2 hfor (amendedLinear_head b t ds)
    (by show ds.length + 2 < ds.length + 3; omega)
    (amendedLinear_below b t ds) (amendedLinear_walkDone b t ds)
  rcases hpick : pickAll noFaults (List.range' 2 ds.length)
      { repo := amendedLinear b t ds, cleanupDone := false, cleanupCount := 0 }
    with ⟨res3, s3⟩
  rw [hpick] at hpickfull
  simp only at hpickfull
  obtain ⟨hok, hnext3, hslen3, hhead3, hlt3, hbelow3, hwd3, hcd3⟩ := hpickfull
  have hframe := pickAll_frame noFaults (List.range' 2 ds.length)
    { repo := amendedLinear b t ds, cleanupDone := false, cleanupCount := 0 }
  rw [hpick] at hframe
  simp only at hframe
  have hmain3 : lookupB s3.repo.branches "main" = some (ds.length + 1) := by
    have h := hframe.2.2.2.2.2 "main" hmainne
    rw [h]
    exact amendedLinear_main b t ds
  rw [hlenr, if_neg hL0] at hhead3 hwd3 hcd3
  have harith : (amendedLinear b t ds).next + ds.length - 1 = 2 * ds.length + 2 := by
    show ds.length + 3 + ds.length - 1 = _
    omega
  rw [harith] at hhead3 hwd3 hcd3
  rw [amendedLinear_chain] at hcd3
  -- the body run
  have hbody : nonTipBody noFaults 1 "main"
      { repo := setupLinear b t ds, cleanupDone := false, cleanupCount := 0 } =
      (Except.ok (ds.length + 2),
       { s3 with repo :=
          gitResetHard (2 * ds.length + 2) (gitCheckout "main" s3.repo) }) := by
    subst hok
    unfold nonTipBody
    simp only [show noFaults.failMv = false from rfl,
      show noFaults.failLink = false from rfl,
      show noFaults.failAmend = false from rfl,
      show noFaults.failRevParse = false from rfl,
      show noFaults.failCheckoutOrig = false from rfl,
      show noFaults.failReset = false from rfl,
      bind_run, guardFault_false_run, getRepo_run, modifyRepo_run, pure_run]
    rw [gitAmend_linear]
    simp only [bind_run, guardFault_false_run, getRepo_run, modifyRepo_run,
      pure_run]
    rw [commitsAfter_amended]
    simp only [hlenr, if_neg hL0, bind_run, guardFault_false_run, getRepo_run,
      modifyRepo_run, pure_run, hpick, hhead3, Option.getD_some]
  -- the whole run with the single cleanup
  have hdone : (nonTipBody noFaults 1 "main"
      { repo := setupLinear b t ds, cleanupDone := false,
        cleanupCount := 0 }).2.cleanupDone = false := by
    rw [hbody]
    exact hframe.1
  have hrun : renameHistorical noFaults 1 (mkLinear b t ds) =
      ((nonTipBody noFaults 1 "main"
          { repo := setupLinear b t ds, cleanupDone := false,
            cleanupCount := 0 }).1,
       { repo := cleanupRepo "main" false
           (nonTipBody noFaults 1 "main"
             { repo := setupLinear b t ds, cleanupDone := false,
               cleanupCount := 0 }).2.repo,
         cleanupDone := true,
         cleanupCount := (nonTipBody noFaults 1 "main"
             { repo := setupLinear b t ds, cleanupDone := false,
               cleanupCount := 0 }).2.cleanupCount + 1 }) := by
    unfold renameHistorical
    rw [hs0]
    exact wrapper_run "main" false (nonTipBody noFaults 1 "main") _ hdone
  -- facts about the repointed repository
  have hck4 : (gitCheckout "main" s3.repo).cur = "main" :=
    gitCheckout_cur_of_mem _ _ (by rw [hmain3]; simp)
  have hr4main : lookupB (gitResetHard (2 * ds.length + 2)
      (gitCheckout "main" s3.repo)).branches "main" = some (2 * ds.length + 2) := by
    show lookupB (setBranch (gitCheckout "main" s3.repo).branches
      (gitCheckout "main" s3.repo).cur (2 * ds.length + 2)) "main" = _
    rw [hck4]
    apply lookupB_setBranch_self
    rw [(gitCheckout_fields "main" s3.repo).1, hmain3]
    simp
  have hr4pres : lookupB (gitResetHard (2 * ds.length + 2)
      (gitCheckout "main" s3.repo)).branches "main" ≠ none := by
    rw [hr4main]; simp
  have hclean := cleanupRepo_fields "main" false
    (gitResetHard (2 * ds.length + 2) (gitCheckout "main" s3.repo)) hr4pres
  have hfinmain : lookupB (cleanupRepo "main" false
      (gitResetHard (2 * ds.length + 2) (gitCheckout "main" s3.repo))).branches
      "main" = some (2 * ds.length + 2) := by
    rw [hclean.2.2.1 "main" hmainne]
    exact hr4main
  have hfinstore : (cleanupRepo "main" false
      (gitResetHard (2 * ds.length + 2) (gitCheckout "main" s3.repo))).store =
      s3.repo.store := by
    rw [cleanupRepo_store]
    show (gitCheckout "main" s3.repo).store = _
    exact gitCheckout_store "main" s3.repo
  have hstlen : s3.repo.store.length = 2 * ds.length + 3 := by
    rw [hslen3, amendedLinear_store_length, hlenr]
    omega
  rw [hrun, hbody]
  refine ⟨rfl, ?_, ?_, ?_, ?_⟩
  · exact hclean.1
  · show lookupB (cleanupRepo "main" false _).branches "main" = _
    rw [hfinmain, if_neg hL0]
  · intro _
    show lookupB (cleanupRepo "main" false _).branches "main" ≠ _
    rw [hfinmain]
    intro hcontra
    have hval := Option.some.inj hcontra
    omega
  · show tipChain (cleanupRepo "main" false
        (gitResetHard (2 * ds.length + 2) (gitCheckout "main" s3.repo))) "main" = _
    unfold tipChain
    simp only [hfinmain]
    rw [hfinstore, hstlen]
    rw [chainDataS_of_done hwd3 (by omega)]
    exact hcd3

/-- Witness for C1 at the history `A → B → C → D` (`ds = [30, 40]`):
the rewrite returns the amended hash 4, `main` ends at the replayed tip
6 ≠ 4, and the tip's chain carries `D`'s and `C`'s changes above the
amended commit. -/
theorem C1_descendant_replay_witness :
    (renameHistorical noFaults 1 (mkLinear 10 20 [30, 40])).1 = Except.ok 4 ∧
    (renameHistorical noFaults 1 (mkLinear 10 20 [30, 40])).2.repo.cur = "main" ∧
    lookupB (renameHistorical noFaults 1
        (mkLinear 10 20 [30, 40])).2.repo.branches "main" = some 6 ∧
    lookupB (renameHistorical noFaults 1
        (mkLinear 10 20 [30, 40])).2.repo.branches "main" ≠ some 4 ∧
    tipChain (renameHistorical noFaults 1 (mkLinear 10 20 [30, 40])).2.repo
        "main" =
      [(40, false), (30, false), (20, true), (10, false)] :=
  ⟨(C1_descendant_replay 10 20 [30, 40]).1,
   (C1_descendant_replay 10 20 [30, 40]).2.1,
   (C1_descendant_replay 10 20 [30, 40]).2.2.1,
   (C1_descendant_replay 10 20 [30, 40]).2.2.2.1 (by decide),
   (C1_descendant_replay 10 20 [30, 40]).2.2.2.2⟩

/-! ### The standalone-token pass leaves no standalone `xxxx` behind -/

theorem digit_toLower {c : Char} (h : isDigitC c = true) : c.toLower = c := by
  have h9 : c.toNat ≤ 57 := by
    simp only [isDigitC, Bool.and_eq_true, decide_eq_true_eq] at h
    have h2 := h.2
    rw [Char.le_def] at h2
    rw [Char.toNat]
    exact h2
  unfold Char.toLower
  rw [if_neg]
  intro hc
  omega

theorem decide_x_eq_digit {d : Char} (hd : isDigitC d = true) :
    decide ('x' = d.toLower) = false := by
  rw [digit_toLower hd]
  apply decide_eq_false
  intro he
  rw [← he] at hd
  exact absurd hd (by decide)

theorem xish_word {c : Char} (h : c.toLower = 'x') : isWordChar c = true := by
  by_cases hAZ : c.toNat ≥ 65 ∧ c.toNat ≤ 90
  · have hA : 'A' ≤ c := by rw [Char.le_def]; exact hAZ.1
    have hZ : c ≤ 'Z' := by rw [Char.le_def]; exact hAZ.2
    simp [isWordChar, hA, hZ]
  · have hcc : c.toLower = c := by unfold Char.toLower; rw [if_neg hAZ]
    rw [hcc] at h
    subst h
    decide

theorem digit_word {c : Char} (h : isDigitC c = true) : isWordChar c = true := by
  simp [isWordChar, h]

theorem ciStartsWith_xxxx_elim {s : Str}
    (h : ciStartsWith (lit "xxxx") s = true) :
    ∃ c1 c2 c3 c4 rest, s = c1 :: c2 :: c3 :: c4 :: rest ∧
      c1.toLower = 'x' ∧ c2.toLower = 'x' ∧ c3.toLower = 'x' ∧
      c4.toLower = 'x' := by
  rw [show lit "xxxx" = 'x' :: 'x' :: 'x' :: 'x' :: [] from rfl] at h
  cases s with
  | nil => exact absurd h (by simp [ciStartsWith])
  | cons c1 s1 =>
  cases s1 with
  | nil => exact absurd h (by simp [ciStartsWith])
  | cons c2 s2 =>
  cases s2 with
  | nil => exact absurd h (by simp [ciStartsWith])
  | cons c3 s3 =>
  cases s3 with
  | nil => exact absurd h (by simp [ciStartsWith])
  | cons c4 s4 =>
  simp only [ciStartsWith, Bool.and_eq_true, decide_eq_true_eq] at h
  exact ⟨c1, c2, c3, c4, s4, rfl, h.1.symm, h.2.1.symm, h.2.2.1.symm,
    h.2.2.2.1.symm⟩

theorem hasStandaloneXxxx_append_digits : ∀ (num X : Str) (p : Bool),
    num.all isDigitC = true → num ≠ [] →
    hasStandaloneXxxx p (num ++ X) = hasStandaloneXxxx true X := by
  intro num
  induction num with
  | nil => intro X p _ hne; exact absurd rfl hne
  | cons d num' ih =>
    intro X p hall hne
    have hd : isDigitC d = true := by
      simp only [List.all_cons, Bool.and_eq_true] at hall
      exact hall.1
    have hall' : num'.all isDigitC = true := by
      simp only [List.all_cons, Bool.and_eq_true] at hall
      exact hall.2
    have hcis : ciStartsWith (lit "xxxx") (d :: (num' ++ X)) = false := by
      show (decide ('x' = d.toLower) && _) = false
      rw [decide_x_eq_digit hd]
      rfl
    have hbd : xxxxBoundaryAt p (d :: (num' ++ X)) = false := by
      simp [xxxxBoundaryAt, hcis]
    rw [show hasStandaloneXxxx p ((d :: num') ++ X) =
      (xxxxBoundaryAt p (d :: (num' ++ X)) ||
        hasStandaloneXxxx (isWordChar d) (num' ++ X)) from rfl]
    rw [hbd, digit_word hd, Bool.false_or]
    cases num' with
    | nil => rfl
    | cons e num'' => exact ih X true hall' (by simp)

theorem ciStartsWith_xs_scan (num : Str) (hnum : num.all isDigitC = true)
    (hne : num ≠ []) : ∀ (fuel : Nat) (pat : Str), (∀ c ∈ pat, c = 'x') →
    ∀ (p : Bool) (s : Str),
    ciStartsWith pat (replaceXxxxScan num fuel p s) = true →
    ciStartsWith pat s = true := by
  intro fuel
  induction fuel with
  | zero => intro pat _ p s h; exact h
  | succ f ih =>
    intro pat hpat p s h
    cases s with
    | nil => exact h
    | cons c cs =>
      cases hb : xxxxBoundaryAt p (c :: cs) with
      | true =>
        rw [show replaceXxxxScan num (f + 1) p (c :: cs) =
          num ++ replaceXxxxScan num f true ((c :: cs).drop 4) from by
            simp [replaceXxxxScan, hb]] at h
        cases pat with
        | nil => rfl
        | cons p0 ps =>
          obtain ⟨d, num', hd0⟩ : ∃ d num', num = d :: num' := by
            cases num with
            | nil => exact absurd rfl hne
            | cons d n' => exact ⟨d, n', rfl⟩
          have hdd : isDigitC d = true := by
            rw [hd0] at hnum
            simp only [List.all_cons, Bool.and_eq_true] at hnum
            exact hnum.1
          rw [hd0, hpat p0 (by simp)] at h
          simp only [List.cons_append, ciStartsWith, decide_x_eq_digit hdd,
            Bool.false_and] at h
          exact absurd h (by simp)
      | false =>
        rw [show replaceXxxxScan num (f + 1) p (c :: cs) =
          c :: replaceXxxxScan num f (isWordChar c) cs from by
            simp [replaceXxxxScan, hb]] at h
        cases pat with
        | nil => rfl
        | cons p0 ps =>
          simp only [ciStartsWith, Bool.and_eq_true] at h ⊢
          exact ⟨h.1, ih ps (fun c' hc' => hpat c' (by simp [hc'])) _ cs h.2⟩

theorem replaceXxxxScan_clears (num : Str) (hnum : num.all isDigitC = true)
    (hne : num ≠ []) : ∀ (fuel : Nat) (p : Bool) (s : Str), s.length < fuel →
    hasStandaloneXxxx p (replaceXxxxScan num fuel p s) = false := by
  intro fuel
  induction fuel with
  | zero => intro p s hlen; omega
  | succ f ih =>
    intro p s hlen
    cases s with
    | nil => rfl
    | cons c cs =>
      cases hb : xxxxBoundaryAt p (c :: cs) with
      | true =>
        have hout : replaceXxxxScan num (f + 1) p (c :: cs) =
            num ++ replaceXxxxScan num f true ((c :: cs).drop 4) := by
          simp [replaceXxxxScan, hb]
        rw [hout, hasStandaloneXxxx_append_digits num _ p hnum hne]
        apply ih true
        rw [List.length_drop]
        simp only [List.length_cons] at hlen ⊢
        omega
      | false =>
        have hout : replaceXxxxScan num (f + 1) p (c :: cs) =
            c :: replaceXxxxScan num f (isWordChar c) cs := by
          simp [replaceXxxxScan, hb]
        rw [hout]
        show (xxxxBoundaryAt p (c :: replaceXxxxScan num f (isWordChar c) cs) ||
          hasStandaloneXxxx (isWordChar c)
            (replaceXxxxScan num f (isWordChar c) cs)) = false
        rw [ih (isWordChar c) cs
          (by simp only [List.length_cons] at hlen; omega), Bool.or_false]
        cases hp : p with
        | true => simp [xxxxBoundaryAt]
        | false =>
        subst hp
        cases hcis : ciStartsWith (lit "xxxx") (c :: cs) with
        | false =>
          have hxs := ciStartsWith_xs_scan num hnum hne (f + 1) (lit "xxxx")
            (by decide) false (c :: cs)
          rw [hout] at hxs
          cases hq : ciStartsWith (lit "xxxx")
              (c :: replaceXxxxScan num f (isWordChar c) cs) with
          | true => exact absurd (hxs hq) (by simp [hcis])
          | false => simp [xxxxBoundaryAt, hq]
        | true =>
          obtain ⟨c1, c2, c3, c4, rest, hs, hx1, hx2, hx3, hx4⟩ :=
            ciStartsWith_xxxx_elim hcis
          obtain ⟨hc1, hcs⟩ : c = c1 ∧ cs = c2 :: c3 :: c4 :: rest := by
            injection hs with h1 h2
            exact ⟨h1, h2⟩
          subst hc1
          subst hcs
          obtain ⟨w, rest', hrest, hw⟩ : ∃ w rest', rest = w :: rest' ∧
              isWordChar w = true := by
            cases rest with
            | nil =>
              exfalso
              rw [show xxxxBoundaryAt false (c :: c2 :: c3 :: c4 :: []) =
                (!false && ciStartsWith (lit "xxxx")
                  (c :: c2 :: c3 :: c4 :: []) && true) from rfl, hcis] at hb
              simp at hb
            | cons w rest' =>
              refine ⟨w, rest', rfl, ?_⟩
              cases hw : isWordChar w with
              | true => rfl
              | false =>
                exfalso
                rw [show xxxxBoundaryAt false
                    (c :: c2 :: c3 :: c4 :: w :: rest') =
                  (!false && ciStartsWith (lit "xxxx")
                    (c :: c2 :: c3 :: c4 :: w :: rest') &&
                    !isWordChar w) from rfl, hcis, hw] at hb
                simp at hb
          subst hrest
          obtain ⟨f4, rfl⟩ : ∃ f4, f = f4 + 4 := by
            refine ⟨f - 4, ?_⟩
            simp only [List.length_cons] at hlen
            omega
          have hout4 : replaceXxxxScan num (f4 + 4) (isWordChar c)
              (c2 :: c3 :: c4 :: w :: rest') =
              c2 :: c3 :: c4 :: w :: replaceXxxxScan num f4 true rest' := by
            have hbt : ∀ s', xxxxBoundaryAt true s' = false := fun s' => by
              simp [xxxxBoundaryAt]
            rw [xish_word hx1]
            simp [replaceXxxxScan, hbt, xish_word hx2, xish_word hx3,
              xish_word hx4, hw]
          rw [hout4]
          rw [show xxxxBoundaryAt false (c :: c2 :: c3 :: c4 :: w ::
              replaceXxxxScan num f4 true rest') =
            (!false && ciStartsWith (lit "xxxx") (c :: c2 :: c3 :: c4 :: w ::
              replaceXxxxScan num f4 true rest') && !isWordChar w) from rfl,
            hw]
          simp

/-- C10: the post-rename document-reference pass runs exactly for Draft
proposals outside dry-run (otherwise it is skipped and leaves the
content alone); when it runs, the content becomes the placeholder-label
rewrite — followed by the standalone `xxxx` replacement exactly when the
document nowhere contains the literal `xxxx-` — and the file is staged
and the commit amended one more time precisely when this changed the
content; moreover, for a nonempty all-digit discussion number, a
document without `xxxx-` has no standalone `(?i)\bxxxx\b` token left
after the pass. -/
theorem C10_document_reference_rewrite (isDraft dryRun : Bool)
    (num content : Str) :
    ((updateDocumentReferences isDraft dryRun num content).skipped = true ↔
      (isDraft = false ∨ dryRun = true)) ∧
    ((updateDocumentReferences isDraft dryRun num content).content =
      if (!isDraft || dryRun) = true then content
      else updateDocRefsContent num content) ∧
    ((updateDocumentReferences isDraft dryRun num content).staged = true ↔
      ((updateDocumentReferences isDraft dryRun num content).skipped = false ∧
        updateDocRefsContent num content ≠ content)) ∧
    ((updateDocumentReferences isDraft dryRun num content).amended =
      (updateDocumentReferences isDraft dryRun num content).staged) ∧
    (containsSub content (lit "xxxx-") = true →
      updateDocRefsContent num content =
        replaceAllPat matchLabelHashXxxx (discussionReplacement num)
          (replaceAllPat (matchLabelPlaceholder issueLabels)
            (discussionReplacement num)
            (replaceAllPat (matchLabelPlaceholder discussionLabels)
              (discussionReplacement num) content))) ∧
    (containsSub content (lit "xxxx-") = false →
      updateDocRefsContent num content =
        replaceXxxx num
          (replaceAllPat matchLabelHashXxxx (discussionReplacement num)
            (replaceAllPat (matchLabelPlaceholder issueLabels)
              (discussionReplacement num)
              (replaceAllPat (matchLabelPlaceholder discussionLabels)
                (discussionReplacement num) content)))) ∧
    (containsSub content (lit "xxxx-") = false →
      num.all isDigitC = true → num ≠ [] →
      hasStandaloneXxxx false (updateDocRefsContent num content) = false) := by
  refine ⟨?_, ?_, ?_, ?_, ?_, ?_, ?_⟩
  · cases isDraft <;> cases dryRun <;>
      simp [updateDocumentReferences] <;>
      by_cases hch : updateDocRefsContent num content = content <;>
      simp [hch]
  · cases isDraft <;> cases dryRun <;>
      simp [updateDocumentReferences] <;>
      by_cases hch : updateDocRefsContent num content = content <;>
      simp [hch]
  · cases isDraft <;> cases dryRun <;>
      simp [updateDocumentReferences] <;>
      by_cases hch : updateDocRefsContent num content = content <;>
      simp [hch]
  · cases isDraft <;> cases dryRun <;>
      simp [updateDocumentReferences] <;>
      by_cases hch : updateDocRefsContent num content = content <;>
      simp [hch]
  · intro h
    simp [updateDocRefsContent, h]
  · intro h
    simp [updateDocRefsContent, h]
  · intro h hall hne
    rw [show updateDocRefsContent num content = replaceXxxx num
      (replaceAllPat matchLabelHashXxxx (discussionReplacement num)
        (replaceAllPat (matchLabelPlaceholder issueLabels)
          (discussionReplacement num)
          (replaceAllPat (matchLabelPlaceholder discussionLabels)
            (discussionReplacement num) content))) from by
      simp [updateDocRefsContent, h]]
    exact replaceXxxxScan_clears num hall hne _ false _ (by omega)

/-- Witness for C10: with discussion number `123` on a draft document
holding a `Discussion: xxxx` placeholder line and a prose `xxxx` token
(and no `xxxx-` filename form), the run is not skipped, and after the
pass no standalone `xxxx` token remains. -/
theorem C10_document_reference_rewrite_witness :
    containsSub (lit "Discussion: xxxx\nsee xxxx here") (lit "xxxx-") = false ∧
    (lit "123").all isDigitC = true ∧
    lit "123" ≠ [] ∧
    hasStandaloneXxxx false
      (updateDocRefsContent (lit "123")
        (lit "Discussion: xxxx\nsee xxxx here")) = false ∧
    ((updateDocumentReferences true false (lit "123")
        (lit "Discussion: xxxx\nsee xxxx here")).skipped = true ↔
      (true = false ∨ false = true)) :=
  ⟨by decide, by decide, by decide,
   (C10_document_reference_rewrite true false (lit "123")
       (lit "Discussion: xxxx\nsee xxxx here")).2.2.2.2.2.2
     (by decide) (by decide) (by decide),
   (C10_document_reference_rewrite true false (lit "123")
       (lit "Discussion: xxxx\nsee xxxx here")).1⟩

end Publish
